import Mathlib

/-!
Verification development for the `script` package of go-genesis
(`packages/script/vminit.go`): a shallow embedding of the VM object
model (`Block`, `ObjInfo`, `ContractInfo`), the contract invoker
`ExecContract`, the map-mode wrapper `ExContract`, the dispatcher
`Call`, the settings accessor `GetSettings` and the name parser
`ParseContract`, together with theorems about the frozen claims.

The interpreter (`RunTime.Run`, `RunInit`) and `StateName` are not part
of the given sources; they are modelled from the specification (see the
doc comments on `ExecEnv` and `StateName`).
-/

namespace VMSpec

/-- Go `interface{}` values stored in the `extend` map and passed as
contract parameters.  `null` is the nil interface; `callable` is an
opaque host function handle. -/
inductive Value where
  | null
  | str (s : String)
  | int (i : Int)
  | u32 (n : Nat)
  | bool (b : Bool)
  | callable (id : Nat)
deriving DecidableEq, Repr

/-- Returns `true` iff the value is the nil interface. -/
def Value.isNull : Value → Bool
  | .null => true
  | _ => false

/-- The `extend` map: a Go `map[string]interface{}`, modelled as an
association list (first binding of a key wins). -/
def EMap := List (String × Value)

instance : DecidableEq EMap := fun a b => List.hasDecEq a b

/-- Map read returning `none` for an absent key. -/
def emGet (m : EMap) (k : String) : Option Value :=
  List.lookup k m

/-- Go map read: an absent key yields the nil interface. -/
def goGet (m : EMap) (k : String) : Value :=
  (emGet m k).getD .null

/-- Map write (insert or overwrite). -/
def emSet (m : EMap) (k : String) (v : Value) : EMap :=
  (k, v) :: List.filter (fun p => !(p.1 == k)) m

/-- Go `delete(m, k)`. -/
def emDel (m : EMap) (k : String) : EMap :=
  List.filter (fun p => !(p.1 == k)) m

theorem emGet_filter_ne (m : List (String × Value)) (k k' : String) (h : k' ≠ k) :
    List.lookup k' (List.filter (fun p => !(p.1 == k)) m) = List.lookup k' m := by
  induction m with
  | nil => rfl
  | cons p rest ih =>
    by_cases hpk : p.1 = k
    · have h1 : (fun (p : String × Value) => !(p.1 == k)) p = false := by
        simp [hpk]
      have h2 : (k' == p.1) = false := by
        simp [hpk]
        exact h
      simp only [List.filter, h1, List.lookup, h2, ih]
    · have h1 : (fun (p : String × Value) => !(p.1 == k)) p = true := by
        simp [hpk]
      simp only [List.filter, h1, List.lookup]
      by_cases hk'p : k' = p.1
      · have h2 : (k' == p.1) = true := by simp [hk'p]
        simp only [h2]
      · have h2 : (k' == p.1) = false := by simp [hk'p]
        simp only [h2, ih]

theorem emGet_set_self (m : EMap) (k : String) (v : Value) :
    emGet (emSet m k v) k = some v := by
  simp [emGet, emSet, List.lookup]

theorem emGet_set_ne (m : EMap) (k k' : String) (v : Value) (h : k' ≠ k) :
    emGet (emSet m k v) k' = emGet m k' := by
  simp only [emGet, emSet, List.lookup]
  have h2 : (k' == k) = false := by simp [h]
  simp only [h2]
  exact emGet_filter_ne m k k' h

theorem emGet_del_self (m : EMap) (k : String) :
    emGet (emDel m k) k = none := by
  simp only [emGet, emDel]
  induction m with
  | nil => rfl
  | cons p rest ih =>
    by_cases hpk : p.1 = k
    · have h1 : (fun (p : String × Value) => !(p.1 == k)) p = false := by
        simp [hpk]
      simp only [List.filter, h1, ih]
    · have h1 : (fun (p : String × Value) => !(p.1 == k)) p = true := by
        simp [hpk]
      have h2 : (k == p.1) = false := by
        simp
        exact fun hh => hpk hh.symm
      simp only [List.filter, h1, List.lookup, h2, ih]

theorem emGet_del_ne (m : EMap) (k k' : String) (h : k' ≠ k) :
    emGet (emDel m k) k' = emGet m k' := by
  simp only [emGet, emDel]
  exact emGet_filter_ne m k k' h

theorem goGet_set_self (m : EMap) (k : String) (v : Value) :
    goGet (emSet m k v) k = v := by
  simp [goGet, emGet_set_self]

theorem goGet_set_ne (m : EMap) (k k' : String) (v : Value) (h : k' ≠ k) :
    goGet (emSet m k v) k' = goGet m k' := by
  simp [goGet, emGet_set_ne m k k' v h]

theorem goGet_del_ne (m : EMap) (k k' : String) (h : k' ≠ k) :
    goGet (emDel m k) k' = goGet m k' := by
  simp [goGet, emGet_del_ne m k k' h]

/-! ### String helpers used by the Go code (`strings.Split`, `strings.Join`,
`strings.Contains`) and by `ParseContract`'s regular expression. -/

/-- Go `strings.Split` on a single separator character; `splitChAux s sep acc`
accumulates the current field in reverse. -/
def splitChAux : List Char → Char → List Char → List String
  | [], _, acc => [String.mk acc.reverse]
  | c :: rest, sep, acc =>
    if c = sep then String.mk acc.reverse :: splitChAux rest sep []
    else splitChAux rest sep (c :: acc)

/-- Go `strings.Split(s, ",")`: note `splitComma "" = [""]`. -/
def splitComma (s : String) : List String :=
  splitChAux s.toList ',' []

/-- Go `strings.Split(s, ".")`. -/
def splitDot (s : String) : List String :=
  splitChAux s.toList '.' []

/-- Go `strings.Join(l, ",")`. -/
def joinComma : List String → String
  | [] => ""
  | [x] => x
  | x :: xs => x ++ "," ++ joinComma xs

/-- Holds when `pat` is a leading segment of `l` (Bool-valued). -/
def startsWithL : List Char → List Char → Bool
  | _, [] => true
  | [], _ :: _ => false
  | c :: cs, p :: ps => c == p && startsWithL cs ps

/-- Holds when `pat` occurs contiguously inside `l` (Bool-valued). -/
def containsSubL : List Char → List Char → Bool
  | [], pat => startsWithL [] pat
  | c :: cs, pat => startsWithL (c :: cs) pat || containsSubL cs pat

/-- Go `strings.Contains(s, sub)`. -/
def strContains (s sub : String) : Bool :=
  containsSubL s.toList sub.toList

/-- Go regexp `\d`. -/
def isDigitCh (c : Char) : Bool :=
  '0' ≤ c && c ≤ '9'

/-- Go regexp `\w` (ASCII word character). -/
def isWordCh (c : Char) : Bool :=
  isDigitCh c || ('a' ≤ c && c ≤ 'z') || ('A' ≤ c && c ≤ 'Z') || c == '_'

/-- Decimal digit value of a digit character. -/
def digitVal (c : Char) : Nat :=
  c.toNat - 48

/-- Value of a decimal digit string (Go `strconv.ParseUint(_, 10, _)`
on an all-digit string). -/
def parseDec (l : List Char) : Nat :=
  l.foldl (fun a c => a * 10 + digitVal c) 0

/-- The decimal digit character for `d < 10`. -/
def digitCh : Nat → Char
  | 0 => '0'
  | 1 => '1'
  | 2 => '2'
  | 3 => '3'
  | 4 => '4'
  | 5 => '5'
  | 6 => '6'
  | 7 => '7'
  | 8 => '8'
  | 9 => '9'
  | _ => '0'

/-- Decimal representation of a natural number (fuel-based so that it
reduces by `decide`); used to state the round-trip claim `str(id)`. -/
def natToDecAux : Nat → Nat → List Char
  | 0, _ => []
  | fuel + 1, n =>
    if n < 10 then [digitCh n]
    else natToDecAux fuel (n / 10) ++ [digitCh (n % 10)]

/-- Decimal string of `n` (correct for every `n`, since `n` digits of
fuel always suffice). -/
def natToDec (n : Nat) : List Char :=
  natToDecAux n n

/-- The list-level body of `ParseContract`: the input must start with
`@`; the digit group is the maximal digit run (backed off by one digit
when nothing remains for the name group, as Go's leftmost-first
backtracking does); the name group is the rest and must be a non-empty
run of word characters. -/
def parseContractL : List Char → Nat × String
  | [] => (0, "")
  | c :: rest =>
    if c = '@' then
      let d0 := rest.takeWhile isDigitCh
      let r0 := rest.dropWhile isDigitCh
      if d0.isEmpty then (0, "")
      else
        let dn : Option (List Char × List Char) :=
          if r0.isEmpty then
            if 2 ≤ rest.length then some (rest.dropLast, [rest.getLastD '0']) else none
          else
            if r0.all isWordCh then some (d0, r0) else none
        match dn with
        | none => (0, "")
        | some (d, n) =>
          (if parseDec d < 4294967296 then parseDec d else 0, String.mk n)
    else (0, "")

/-- The function `ParseContract` from vminit.go: matches `(?is)^@(\d+)(\w[_\w\d]*)$`
with Go's leftmost-first (greedy, backtracking) submatch semantics, then
converts the digit group with `strconv.ParseUint(_, 10, 32)`; a range
error leaves the id at 0 but still assigns the name group.  On
non-match it returns `(0, "")`. -/
def ParseContract (s : String) : Nat × String :=
  parseContractL s.toList

/-! ### The compiled object model of vminit.go -/

/-- Object type tags (the `iota` constants `ObjUnknown .. ObjExtend`). -/
def objUnknown : Nat := 0

/-- Go constant `ObjContract`. -/
def objContract : Nat := 1

/-- Go constant `ObjFunc`. -/
def objFunc : Nat := 2

/-- Go constant `ObjExtFunc`. -/
def objExtFunc : Nat := 3

/-- Go constant `CostContract`: gas charged per contract call. -/
def costContract : Int := 100

/-- Go constant `CostDefault`: default budget used by `Call` for functions. -/
def costDefault : Int := 10000000

/-- The reflect type of a `tx` schema field (only what the invoker
needs: the zero value for defaulting an absent optional field). -/
inductive GoType where
  | tyString
  | tyInt64
  | tyBool
  | tyOther
deriving DecidableEq, Repr

/-- Go `reflect.New(t).Elem().Interface()`: the zero value of a type. -/
def zeroValue : GoType → Value
  | .tyString => .str ""
  | .tyInt64 => .int 0
  | .tyBool => .bool false
  | .tyOther => .null

/-- Go `FieldInfo`: one declared `tx` schema field. -/
structure FieldInfo where
  name : String
  type : GoType
  tags : String
deriving DecidableEq, Repr

/-- Go `ContractInfo` (the fields the modelled functions read: `ID`,
`Name`, `Tx`, `Settings`; `Owner` and `Used` are never touched by the
functions under study). -/
structure ContractInfo where
  id : Nat
  name : String
  tx : Option (List FieldInfo)
  settings : Option (List (String × Value))
deriving DecidableEq, Repr

/-- Go `ExtFuncInfo` reduced to what the marshalling of `Call` inspects: the
number of declared parameters and variadicity, plus an opaque handle
for the host callable. -/
structure ExtFuncStub where
  id : Nat
  nparams : Nat
  variadic : Bool
deriving DecidableEq, Repr

/-- The `Block.Info` payload: contract payload, function payload, or absent. -/
inductive BlockInfo where
  | contract (ci : ContractInfo)
  | funcI
  | noInfo
deriving DecidableEq, Repr

mutual

/-- Go `Block`: objects map, type tag, `Info`, and the (non-owning, here
copied) parent link.  `Children`, `Vars` and `Code` are not read by the
modelled functions and are omitted. -/
inductive Block where
  | mk (objects : ObjMap) (btype : Nat) (info : BlockInfo) (parent : Option Block)

/-- The `Objects` map of a block: name-keyed association map. -/
inductive ObjMap where
  | nil
  | cons (key : String) (val : ObjInfo) (rest : ObjMap)

/-- Go `ObjInfo`: type tag plus payload. -/
inductive ObjInfo where
  | mk (otype : Nat) (value : ObjValue)

/-- The payload of an `ObjInfo`: a `*Block` or an `ExtFuncInfo`. -/
inductive ObjValue where
  | blockv (b : Block)
  | extv (f : ExtFuncStub)

end

/-- The objects of a block. -/
def Block.objects : Block → ObjMap
  | .mk o _ _ _ => o

/-- The type tag of a block. -/
def Block.btype : Block → Nat
  | .mk _ t _ _ => t

/-- The `Info` of a block. -/
def Block.info : Block → BlockInfo
  | .mk _ _ i _ => i

/-- The parent link of a block. -/
def Block.parentB : Block → Option Block
  | .mk _ _ _ p => p

/-- Lookup in a block's `Objects` map. -/
def ObjMap.lookupKey : ObjMap → String → Option ObjInfo
  | .nil, _ => none
  | .cons k v r, key => if k == key then some v else r.lookupKey key

/-- The type tag of an object. -/
def ObjInfo.otype : ObjInfo → Nat
  | .mk t _ => t

/-- The payload of an object. -/
def ObjInfo.value : ObjInfo → ObjValue
  | .mk _ v => v

/-- A VM is its root block (`VM` embeds `Block`; `vm.Objects` is the
root registry).  `ExtCost`, `FuncCallsDB` and `Extern` are not read by
the modelled functions. -/
def VMReg := Block

/-- Direct root-registry access `rt.vm.Objects[name]` as used by
`ExecContract`, `ExContract` and `GetSettings`. -/
def regGet (vm : VMReg) (name : String) : Option ObjInfo :=
  (Block.objects vm).lookupKey name

/-- Modelled from the spec: `StateName` is not in the given sources;
per §4.1 it is pure and "returns `\"@<state_id><name>\"` when
`state_id ≠ 0`, else the name unchanged". -/
def StateName (state : Nat) (name : String) : String :=
  if state ≠ 0 then "@" ++ toString state ++ name else name

/-- Result of dotted-path resolution: found, miss, or a Go panic (the
`ret.Value.(*Block)` assertion in `getObjByName` on a non-block
payload). -/
inductive ROut where
  | found (o : ObjInfo)
  | notFound
  | crashed

/-- The resolver `getObjByName`: split on `.`, descend through contract/function
blocks. -/
def resolveIn (b : Block) : List String → ROut
  | [] => .notFound
  | [n] =>
    match (Block.objects b).lookupKey n with
    | none => .notFound
    | some o => .found o
  | n :: rest =>
    match (Block.objects b).lookupKey n with
    | none => .notFound
    | some o =>
      if o.otype = objContract ∨ o.otype = objFunc then
        match o.value with
        | .blockv b' => resolveIn b' rest
        | .extv _ => .crashed
      else .notFound

/-- Go `vm.getObjByName(name)`. -/
def getObjByName (vm : VMReg) (name : String) : ROut :=
  resolveIn vm (splitDot name)

/-- Go `vm.getObjByNameExt(name, state)`: unqualified first, then the
state-qualified name when the first lookup misses. -/
def getObjByNameExt (vm : VMReg) (name : String) (state : Nat) : ROut :=
  let sname := StateName state name
  match getObjByName vm name with
  | .notFound => if 0 < sname.length then getObjByName vm sname else .notFound
  | r => r

/-! ### The contract invoker `ExecContract` -/

/-- Per-invocation runtime state: the frame stack (each frame's
`Block`), the gas budget and the `extend` map (`rt.extend` is a pointer
in Go; here it is threaded). -/
structure RTState where
  blocks : List Block
  cost : Int
  extend : EMap

/-- Modelled from the spec: the interpreter (`RunTime.Run` after
`RunInit`) and the `check_signature` extern are not in the given
sources; per §4.4 `Run` executes a block's bytecode against a budget
and the caller's `extend` map (opcodes unspecified), and per §4.5 the
signature hook receives the `extend` map and the contract name and can
fail.  Both are modelled as arbitrary state transformers; the `Bool`
component signals an error return. -/
structure ExecEnv where
  run : Block → EMap → Int → EMap × Int × Bool
  sigCheck : EMap → String → EMap × Bool

/-- Error kinds `ExecContract` and its model can produce.  `crashed`
stands for a Go runtime panic (failed type assertion or nil
dereference); `sigFail` and `methodFail` tag errors propagated verbatim
from the signature hook and from a method run. -/
inductive ExecErr where
  | unknownContract (n : String)
  | badParams
  | undefinedParam (n : String)
  | contractLoop (n : String)
  | sigFail
  | methodFail (m : String)
  | crashed
deriving DecidableEq, Repr

/-- One stack-hook invocation: the `extend["sc"]` value passed and the
name argument (`name` on entry, `""` on exit). -/
structure Event where
  sc : Value
  arg : String
deriving DecidableEq, Repr

/-- The full observable outcome of `ExecContract`: final runtime state,
the stack-hook calls made, and the result or error. -/
def ExecRes := RTState × List Event × Except ExecErr String

/-- Go `strings.Contains(tags, "optional")`. -/
def hasOptionalTag (tags : String) : Bool :=
  strContains tags "optional"

/-- The required-parameter loop over the `tx` schema (vminit.go lines
225-236): for each field absent from the supplied names, error unless
`optional` (in which case its slot in `extend` is defaulted to the zero
value); a field named `Signature` sets the signature flag.  Returns the
(possibly mutated) map, the flag, and the first missing mandatory field
name. -/
def checkTxFields : List FieldInfo → List String → EMap → Bool → EMap × Bool × Option String
  | [], _, m, sig => (m, sig, none)
  | f :: rest, pars, m, sig =>
    if pars.contains f.name then
      checkTxFields rest pars m (sig || f.name == "Signature")
    else if hasOptionalTag f.tags then
      checkTxFields rest pars (emSet m f.name (zeroValue f.type)) (sig || f.name == "Signature")
    else (m, sig, some f.name)

/-- The schema loop guarded by `Tx != nil`. -/
def checkTxWrap (tx : Option (List FieldInfo)) (pars : List String) (m : EMap) :
    EMap × Bool × Option String :=
  match tx with
  | none => (m, false, none)
  | some l => checkTxFields l pars m false

/-- Parameter binding (vminit.go lines 244-246): `extend[par_i] = value_i`
in order.  The two lists have equal length when called. -/
def bindPars : EMap → List String → List Value → EMap
  | m, [], _ => m
  | m, _, [] => m
  | m, p :: ps, v :: vs => bindPars (emSet m p v) ps vs

/-- The frame walk (vminit.go lines 249-263), on the reversed stack
(top of stack first): the first frame whose block is a function with a
contract parent yields that parent block. -/
def findParentAux : List Block → Option Block
  | [] => none
  | b :: rest =>
    if Block.btype b = objFunc then
      match Block.parentB b with
      | some p => if Block.btype p = objContract then some p else findParentAux rest
      | none => findParentAux rest
    else findParentAux rest

/-- The frame walk from the top of the stack downwards. -/
def findParentCBlock (bs : List Block) : Option Block :=
  findParentAux bs.reverse

/-- The parent-name rewriting (vminit.go lines 253-261). -/
def rewriteParent (p name : String) : String :=
  let fp := ParseContract p
  let cp := ParseContract name
  if 0 < fp.2.length then
    if fp.1 = 0 then "@" ++ fp.2
    else if fp.1 = cp.1 then fp.2
    else p
  else p

/-- Parent resolution: `some parent` on success (`""` when no frame
matches), `none` when the found parent block's `Info` is not a
`*ContractInfo` (Go panic on the type assertion at line 252). -/
def computeParent (bs : List Block) (name : String) : Option String :=
  match findParentCBlock bs with
  | none => some ""
  | some pb =>
    match Block.info pb with
    | .contract ci => some (rewriteParent ci.name name)
    | _ => none

/-- The stack-hook condition (vminit.go line 267): key `stack_cont`
present and `extend["sc"]` non-nil; `bad` marks the panic of the
`stack.(func(interface{}, string))` assertion on a non-callable
value. -/
inductive HookSt where
  | off
  | fire
  | bad
deriving DecidableEq, Repr

/-- Classify the stack-hook condition on the current `extend` map. -/
def hookState (m : EMap) : HookSt :=
  match emGet m "stack_cont" with
  | none => .off
  | some v =>
    if (goGet m "sc").isNull then .off
    else
      match v with
      | .callable _ => .fire
      | _ => .bad

/-- The signature hook (vminit.go lines 271-278): when `extend["sc"]`
is non-nil and the schema declared a `Signature` field, look up the
`check_signature` extern (nil dereference / failed assertions crash)
and run it; its error is propagated. -/
def sigPhase (env : ExecEnv) (vm : VMReg) (m : EMap) (name : String) (isSig : Bool) :
    EMap × Option ExecErr :=
  if !(goGet m "sc").isNull && isSig then
    match regGet vm "check_signature" with
    | none => (m, some .crashed)
    | some obj =>
      match ObjInfo.value obj with
      | .extv _ =>
        let r := env.sigCheck m name
        (r.1, if r.2 then some .sigFail else none)
      | .blockv _ => (m, some .crashed)
  else (m, none)

/-- Go `fmt.Sprint` on a stored value (vminit.go line 296); only the
string, integer and boolean renderings are ever relied upon. -/
def sprintValue : Value → String
  | .null => "<nil>"
  | .str s => s
  | .int i => toString i
  | .u32 n => toString n
  | .bool b => if b then "true" else "false"
  | .callable id => "0x" ++ toString id

/-- The method sequence (vminit.go lines 279-290): for each of `init`,
`conditions`, `action` present as a function, set `extend["parent"]`,
run it on a sub-runtime seeded with the current budget, thread the
remaining budget back, and abort on error.  The value assertion
`block.Value.(*Block)` is evaluated after the parent assignment. -/
def methodLoop (env : ExecEnv) (cblock : Block) (parent : String) :
    List String → EMap → Int → EMap × Int × Option ExecErr
  | [], m, c => (m, c, none)
  | meth :: rest, m, c =>
    match (Block.objects cblock).lookupKey meth with
    | some obj =>
      if ObjInfo.otype obj = objFunc then
        let m' := emSet m "parent" (.str parent)
        match ObjInfo.value obj with
        | .blockv mb =>
          let r := env.run mb m' c
          if r.2.2 then (r.1, r.2.1, some (.methodFail meth))
          else methodLoop env cblock parent rest r.1 r.2.1
        | .extv _ => (m', c, some .crashed)
      else methodLoop env cblock parent rest m c
    | none => methodLoop env cblock parent rest m c

/-- The method names run in order. -/
def methodNames : List String := ["init", "conditions", "action"]

/-- Everything after the loop-guard acquisition (vminit.go lines
244-298): bind parameters, save `prevparent`, resolve the parent,
charge gas, fire the entry stack hook, run the signature hook, run the
methods, fire the exit stack hook, restore `extend["parent"]` and read
`extend["result"]`. -/
def execAfterGuard (env : ExecEnv) (vm : VMReg) (rt : RTState) (name : String)
    (cblock : Block) (isSig : Bool) (pars : List String) (params : List Value) : ExecRes :=
  let m3 := bindPars rt.extend pars params
  let prevparent := goGet m3 "parent"
  match computeParent rt.blocks name with
  | none => ({ rt with extend := m3 }, [], .error .crashed)
  | some parent =>
    let c2 := rt.cost - costContract
    match hookState m3 with
    | .bad => ({ rt with extend := m3, cost := c2 }, [], .error .crashed)
    | hs =>
      let hookOn := hs = HookSt.fire
      let evs0 := if hookOn then [Event.mk (goGet m3 "sc") name] else []
      let sp := sigPhase env vm m3 name isSig
      match sp.2 with
      | some e => ({ rt with extend := sp.1, cost := c2 }, evs0, .error e)
      | none =>
        let r := methodLoop env cblock parent methodNames sp.1 c2
        match r.2.2 with
        | some e => ({ rt with extend := r.1, cost := r.2.1 }, evs0, .error e)
        | none =>
          let evs1 := evs0 ++ (if hookOn then [Event.mk (goGet r.1 "sc") ""] else [])
          let m6 := emSet r.1 "parent" prevparent
          let res := if (goGet m6 "result").isNull then "" else sprintValue (goGet m6 "result")
          ({ rt with extend := m6, cost := r.2.1 }, evs1, .ok res)

/-- Go `ExecContract(rt, name, txs, params...)` (vminit.go lines 204-298):
resolve the name in the root registry, match the comma-split `txs`
against `params` by length, run the required-parameter check, take the
`loop_<name>` guard (released on every exit path via `defer delete`),
and execute the body. -/
def ExecContract (env : ExecEnv) (vm : VMReg) (rt : RTState) (name txs : String)
    (params : List Value) : ExecRes :=
  match regGet vm name with
  | none => (rt, [], .error (.unknownContract name))
  | some obj =>
    match ObjInfo.value obj with
    | .extv _ => (rt, [], .error .crashed)
    | .blockv cblock =>
      match Block.info cblock with
      | .contract cinfo =>
        let pars := splitComma txs
        if pars.length ≠ params.length then (rt, [], .error .badParams)
        else
          let ck := checkTxWrap cinfo.tx pars rt.extend
          match ck.2.2 with
          | some fn => ({ rt with extend := ck.1 }, [], .error (.undefinedParam fn))
          | none =>
            if (emGet ck.1 ("loop_" ++ name)).isSome then
              ({ rt with extend := ck.1 }, [], .error (.contractLoop name))
            else
              let rt1 : RTState :=
                { rt with extend := emSet ck.1 ("loop_" ++ name) (.bool true) }
              let r := execAfterGuard env vm rt1 name cblock ck.2.1 pars params
              ({ r.1 with extend := emDel r.1.extend ("loop_" ++ name) }, r.2.1, r.2.2)
      | _ => (rt, [], .error .crashed)

/-! ### `ExContract`, `Call` and `GetSettings` -/

/-- The schema flattening of `ExContract` (vminit.go lines 444-454):
walk the declared `tx` fields in order; a field absent from the params
map errors unless `optional`; every field contributes its name and the
looked-up value (the nil interface when absent but optional). -/
def buildArgs : List FieldInfo → List (String × Value) → Except String (List String × List Value)
  | [], _ => .ok ([], [])
  | f :: rest, ps =>
    match List.lookup f.name ps with
    | none =>
      if hasOptionalTag f.tags then
        match buildArgs rest ps with
        | .error e => .error e
        | .ok (ns, vs) => .ok (f.name :: ns, Value.null :: vs)
      else .error f.name
    | some v =>
      match buildArgs rest ps with
      | .error e => .error e
      | .ok (ns, vs) => .ok (f.name :: ns, v :: vs)

/-- Go `ExContract(rt, state, name, params)` (vminit.go lines 429-459):
qualify the name, resolve it, flatten the schema into parallel
names/values, append an empty-string dummy value when no values were
produced, and delegate to `ExecContract`. -/
def ExContract (env : ExecEnv) (vm : VMReg) (rt : RTState) (state : Nat) (name : String)
    (params : List (String × Value)) : ExecRes :=
  let qn := StateName state name
  match regGet vm qn with
  | none => (rt, [], .error (.unknownContract qn))
  | some obj =>
    match ObjInfo.value obj with
    | .extv _ => (rt, [], .error .crashed)
    | .blockv cblock =>
      match Block.info cblock with
      | .contract cinfo =>
        match (match cinfo.tx with
               | none => Except.ok ([], [])
               | some l => buildArgs l params) with
        | .error fn => (rt, [], .error (.undefinedParam fn))
        | .ok (ns, vs) =>
          let vs' := if vs.isEmpty then [Value.str ""] else vs
          ExecContract env vm rt qn (joinComma ns) vs'
      | _ => (rt, [], .error .crashed)

/-- Modelled from the spec: `ex_contract` as §4.5 describes it — "a
map-mode wrapper: resolves `StateName(state, name)`, flattens the
contract's declared `tx` schema into parallel `(names[], vals[])`
sequences honoring the same `optional` rule, appends an empty-string
dummy arg when `vals` is empty, and delegates to `exec_contract`";
a missing non-optional field fails with `UndefinedParam` before any
delegation, an unresolvable qualified name with `UnknownContract`. -/
def exContractSpec (env : ExecEnv) (vm : VMReg) (rt : RTState) (state : Nat) (name : String)
    (params : List (String × Value)) : ExecRes :=
  let qn := StateName state name
  match regGet vm qn with
  | none => (rt, [], .error (.unknownContract qn))
  | some obj =>
    match ObjInfo.value obj with
    | .extv _ => (rt, [], .error .crashed)
    | .blockv cblock =>
      match Block.info cblock with
      | .contract cinfo =>
        let l := cinfo.tx.getD []
        match l.find? (fun f => (List.lookup f.name params).isNone && !hasOptionalTag f.tags) with
        | some f => (rt, [], .error (.undefinedParam f.name))
        | none =>
          let ns := l.map (fun f => f.name)
          let vs := l.map (fun f => (List.lookup f.name params).getD Value.null)
          let vs' := if vs.isEmpty then [Value.str ""] else vs
          ExecContract env vm rt qn (joinComma ns) vs'
      | _ => (rt, [], .error .crashed)

/-- The host-side behaviour `Call` depends on: the interpreter for
function objects (modelled from the spec, as in `ExecEnv`), and the
reflective invocation of an extern's host callable, receiving the
positional arguments and, for variadics, the packed tail.  An extern's
own error is one of its result values, so `extF` only yields values. -/
structure CallEnv where
  runF : Block → List Value → EMap → Int → List Value × EMap × Bool
  extF : ExtFuncStub → List Value → List Value → List Value

/-- Errors `Call` can return: its own "unknown function" error, or an
error propagated verbatim from a function block's run. -/
inductive CErr where
  | unknownFunc (n : String)
  | fromRun
deriving DecidableEq, Repr

/-- The outcome of `Call`: result values plus optional error, or a Go
panic. -/
inductive CallRes where
  | r (vals : List Value) (err : Option CErr)
  | crashed
deriving DecidableEq, Repr

/-- The resolution step of `Call` (vminit.go lines 387-392): with
`extend["rt_state"]` present it must hold a `uint32` (the assertion
panics otherwise, modelled as `none`) and resolution is
state-qualified; otherwise plain. -/
def callResolve (vm : VMReg) (name : String) (m : EMap) : Option ROut :=
  match emGet m "rt_state" with
  | none => some (getObjByName vm name)
  | some (.u32 s) => some (getObjByNameExt vm name s)
  | some _ => none

/-- Go `vm.Call(name, params, extend)` (vminit.go lines 386-426): resolve,
then run a function block on a fresh default-budget runtime, or marshal
and invoke an extern (ignoring surplus arguments, packing the variadic
tail, panicking when fewer arguments than declared parameters are
supplied); anything else is an "unknown function" error.  The returned
`VMReg` is the root registry after the call. -/
def Call (env : CallEnv) (vm : VMReg) (name : String) (params : List Value) (m : EMap) :
    VMReg × EMap × CallRes :=
  match callResolve vm name m with
  | none => (vm, m, .crashed)
  | some .crashed => (vm, m, .crashed)
  | some .notFound => (vm, m, .r [] (some (.unknownFunc name)))
  | some (.found obj) =>
    if ObjInfo.otype obj = objFunc then
      match ObjInfo.value obj with
      | .blockv b =>
        let r := env.runF b params m costDefault
        (vm, r.2.1, .r r.1 (if r.2.2 then some .fromRun else none))
      | .extv _ => (vm, m, .crashed)
    else if ObjInfo.otype obj = objExtFunc then
      match ObjInfo.value obj with
      | .extv f =>
        if f.variadic then
          if f.nparams = 0 then (vm, m, .crashed)
          else if params.length < f.nparams - 1 then (vm, m, .crashed)
          else (vm, m, .r (env.extF f (params.take (f.nparams - 1)) (params.drop (f.nparams - 1))) none)
        else
          if params.length < f.nparams then (vm, m, .crashed)
          else (vm, m, .r (env.extF f (params.take f.nparams) []) none)
      | .blockv _ => (vm, m, .crashed)
    else (vm, m, .r [] (some (.unknownFunc name)))

/-- The outcome of `GetSettings`. -/
inductive SettingsRes where
  | ok (v : Value)
  | errUnknown
  | crashed
deriving DecidableEq, Repr

/-- Go `GetSettings(rt, cntname, name)` (vminit.go lines 462-475). -/
def GetSettings (vm : VMReg) (cntname key : String) : SettingsRes :=
  match regGet vm cntname with
  | none => .errUnknown
  | some obj =>
    match ObjInfo.value obj with
    | .blockv cb =>
      match Block.info cb with
      | .contract ci =>
        match ci.settings with
        | none => .ok (.str "")
        | some st =>
          match List.lookup key st with
          | some v => .ok v
          | none => .ok (.str "")
      | _ => .crashed
    | .extv _ => .crashed

/-! ### Decidable well-formedness side conditions -/

/-- A method slot is well typed: if present with type `ObjFunc`, its
payload is a block (otherwise the run would panic on the assertion). -/
def methodWF1 (cb : Block) (n : String) : Bool :=
  match (Block.objects cb).lookupKey n with
  | some obj =>
    if ObjInfo.otype obj = objFunc then
      match ObjInfo.value obj with
      | .blockv _ => true
      | _ => false
    else true
  | none => true

/-- All three method slots are well typed. -/
def methodsWFB (cb : Block) : Bool :=
  methodWF1 cb "init" && methodWF1 cb "conditions" && methodWF1 cb "action"

/-- No method slot is a function: the method loop runs nothing. -/
def noMethod1 (cb : Block) (n : String) : Bool :=
  match (Block.objects cb).lookupKey n with
  | some obj => !(ObjInfo.otype obj == objFunc)
  | none => true

/-- None of `init`, `conditions`, `action` is present as a function. -/
def noMethodsB (cb : Block) : Bool :=
  noMethod1 cb "init" && noMethod1 cb "conditions" && noMethod1 cb "action"

/-- The frame walk cannot panic: if a parent contract block is found,
its `Info` is a `*ContractInfo`. -/
def framesWFB (bs : List Block) : Bool :=
  match findParentCBlock bs with
  | none => true
  | some pb =>
    match Block.info pb with
    | .contract _ => true
    | _ => false

/-- When `name` resolves to a contract block, no declared `tx` field is
named `key`. -/
def fieldsAvoidB (vm : VMReg) (name key : String) : Bool :=
  match regGet vm name with
  | some obj =>
    match ObjInfo.value obj with
    | .blockv cb =>
      match Block.info cb with
      | .contract ci =>
        match ci.tx with
        | some l => l.all (fun f => f.name != key)
        | none => true
      | _ => true
    | _ => true
  | none => true

/-- When `name` resolves to a block, its method slots are well typed. -/
def methodsOkB (vm : VMReg) (name : String) : Bool :=
  match regGet vm name with
  | some obj =>
    match ObjInfo.value obj with
    | .blockv cb => methodsWFB cb
    | _ => true
  | none => true

/-- The schema phase of `ExecContract` succeeds: `name` resolves to a
contract block, the split `txs` matches `params` in length, and the
required-parameter check raises no error on `m`. -/
def schemaPassB (vm : VMReg) (name txs : String) (params : List Value) (m : EMap) : Bool :=
  match regGet vm name with
  | some obj =>
    match ObjInfo.value obj with
    | .blockv cb =>
      match Block.info cb with
      | .contract ci =>
        ((splitComma txs).length == params.length) &&
          (checkTxWrap ci.tx (splitComma txs) m).2.2.isNone
      | _ => false
    | _ => false
  | none => false

/-! ### Small string facts -/

theorem strDataAppend (a b : String) : (a ++ b).data = a.data ++ b.data := rfl

theorem loopKey_ne_parent (n : String) : ("loop_" ++ n) ≠ "parent" := by
  intro h
  have hd : ("loop_" ++ n).data = "parent".data := congrArg String.data h
  rw [strDataAppend] at hd
  have h1 : "loop_".data = ['l', 'o', 'o', 'p', '_'] := rfl
  have h2 : "parent".data = ['p', 'a', 'r', 'e', 'n', 't'] := rfl
  rw [h1, h2] at hd
  simp at hd

theorem loopKey_ne_sc (n : String) : ("loop_" ++ n) ≠ "sc" := by
  intro h
  have hd : ("loop_" ++ n).data = "sc".data := congrArg String.data h
  rw [strDataAppend] at hd
  have h1 : "loop_".data = ['l', 'o', 'o', 'p', '_'] := rfl
  have h2 : "sc".data = ['s', 'c'] := rfl
  rw [h1, h2] at hd
  simp at hd

theorem loopKey_ne_empty (n : String) : ("loop_" ++ n) ≠ "" := by
  intro h
  have hd : ("loop_" ++ n).data = "".data := congrArg String.data h
  rw [strDataAppend] at hd
  have h1 : "loop_".data = ['l', 'o', 'o', 'p', '_'] := rfl
  have h2 : "".data = [] := rfl
  rw [h1, h2] at hd
  simp at hd

theorem loopKey_ne_result (n : String) : ("loop_" ++ n) ≠ "result" := by
  intro h
  have hd : ("loop_" ++ n).data = "result".data := congrArg String.data h
  rw [strDataAppend] at hd
  have h1 : "loop_".data = ['l', 'o', 'o', 'p', '_'] := rfl
  have h2 : "result".data = ['r', 'e', 's', 'u', 'l', 't'] := rfl
  rw [h1, h2] at hd
  simp at hd

/-! ### C9: the settings accessor -/

/-- C9: `GetSettings(rt, cntname, key)` errors iff `cntname` is absent
from the root registry; on a resolved contract it returns the empty
string when the settings map is nil, else the value stored under the
key, defaulting to the empty string. -/
theorem getSettings_spec (vm : VMReg) (c k : String) :
    ((GetSettings vm c k = SettingsRes.errUnknown) ↔ regGet vm c = none) ∧
    (∀ t cb ci, regGet vm c = some (ObjInfo.mk t (ObjValue.blockv cb)) →
      Block.info cb = BlockInfo.contract ci →
      GetSettings vm c k =
        SettingsRes.ok (match ci.settings with
          | none => Value.str ""
          | some st => (List.lookup k st).getD (Value.str ""))) := by
  constructor
  · cases hr : regGet vm c with
    | none => simp [GetSettings, hr, ObjInfo.value]
    | some obj =>
      rcases obj with ⟨t, v⟩
      cases v with
      | blockv cb =>
        cases hinf : Block.info cb with
        | contract ci =>
          cases hset : ci.settings with
          | none => simp [GetSettings, hr, ObjInfo.value, hinf, hset]
          | some st => cases hlk : List.lookup k st <;> simp [GetSettings, hr, ObjInfo.value, hinf, hset, hlk]
        | funcI => simp [GetSettings, hr, ObjInfo.value, hinf]
        | noInfo => simp [GetSettings, hr, ObjInfo.value, hinf]
      | extv f => simp [GetSettings, hr, ObjInfo.value]
  · intro t cb ci hr hinf
    cases hset : ci.settings with
    | none => simp [GetSettings, hr, ObjInfo.value, hinf, hset]
    | some st => cases hlk : List.lookup k st <;> simp [GetSettings, hr, ObjInfo.value, hinf, hset, hlk]

/-- Fixture: a contract `S` with a settings map `{k ↦ v}`. -/
def settingsCI : ContractInfo :=
  { id := 0, name := "S", tx := none, settings := some [("k", .str "v")] }

/-- Fixture: the block of contract `S`. -/
def settingsBlock : Block := .mk .nil objContract (.contract settingsCI) none

/-- Fixture: a registry holding only contract `S`. -/
def settingsVM : VMReg :=
  .mk (.cons "S" (.mk objContract (.blockv settingsBlock)) .nil) objUnknown .noInfo none

/-- Witness for C9 at a concrete registry: the stored value is
returned. -/
theorem getSettings_spec_witness :
    GetSettings settingsVM "S" "k" = SettingsRes.ok (Value.str "v") := by
  have h := (getSettings_spec settingsVM "S" "k").2 objContract settingsBlock settingsCI rfl rfl
  exact h

/-! ### C7: the dispatcher `Call` -/

/-- The dispatcher never touches the root registry. -/
theorem call_fst (env : CallEnv) (vm : VMReg) (name : String) (params : List Value)
    (m : EMap) : (Call env vm name params m).1 = vm := by
  unfold Call
  repeat' split
  all_goals rfl

/-- C7: `Call` returns a nil result with the "unknown function" error
exactly when resolution (state-qualified when `extend["rt_state"]` is
set, plain otherwise) misses or yields an object that is neither a
function nor an extern function; and the root registry is returned
unchanged in every case. -/
theorem call_unknown_iff (env : CallEnv) (vm : VMReg) (name : String)
    (params : List Value) (m : EMap) :
    (Call env vm name params m).1 = vm ∧
    ((Call env vm name params m).2.2 = CallRes.r [] (some (.unknownFunc name)) ↔
      (callResolve vm name m = some ROut.notFound ∨
        ∃ o, callResolve vm name m = some (ROut.found o) ∧
          ObjInfo.otype o ≠ objFunc ∧ ObjInfo.otype o ≠ objExtFunc)) := by
  refine ⟨call_fst env vm name params m, ?_⟩
  cases hcr : callResolve vm name m with
  | none => simp [Call, hcr]
  | some ro =>
    cases ro with
    | notFound => simp [Call, hcr]
    | crashed => simp [Call, hcr]
    | found obj =>
      constructor
      · intro h
        by_cases h1 : ObjInfo.otype obj = objFunc
        · exfalso
          rcases hv : ObjInfo.value obj with b | f
          · revert h
            simp only [Call, hcr, h1, hv, if_pos]
            split <;> simp
          · revert h
            simp [Call, hcr, h1, hv]
        · by_cases h2 : ObjInfo.otype obj = objExtFunc
          · exfalso
            rcases hv : ObjInfo.value obj with b | f
            · simp [Call, hcr, h1, h2, hv, objFunc, objExtFunc] at h
            · simp [Call, hcr, h1, h2, hv, objFunc, objExtFunc] at h
              repeat' split at h
              all_goals simp at h
          · exact Or.inr ⟨obj, rfl, h1, h2⟩
      · rintro (h | ⟨o, ho, hne1, hne2⟩)
        · exact absurd h (by simp)
        · have hoo : obj = o := by
            injection ho with ho'
            injection ho'
          rw [← hoo] at hne1 hne2
          simp [Call, hcr, hne1, hne2]

/-! ### C6: the `ParseContract` round trip -/

/-- Decimal string of a natural number (`str(id)` of the claim). -/
def natStr (n : Nat) : String := String.mk (natToDec n)

theorem digitCh_isDigit (d : Nat) (h : d < 10) : isDigitCh (digitCh d) = true := by
  interval_cases d <;> decide

theorem digitVal_digitCh (d : Nat) (h : d < 10) : digitVal (digitCh d) = d := by
  interval_cases d <;> decide

theorem parseDec_concat (l : List Char) (c : Char) :
    parseDec (l ++ [c]) = parseDec l * 10 + digitVal c := by
  simp [parseDec, List.foldl_append]

theorem natToDecAux_spec : ∀ fuel n, 0 < n → n ≤ fuel →
    natToDecAux fuel n ≠ [] ∧ (natToDecAux fuel n).all isDigitCh = true ∧
      parseDec (natToDecAux fuel n) = n := by
  intro fuel
  induction fuel with
  | zero => intro n h1 h2; omega
  | succ fuel ih =>
    intro n h1 h2
    by_cases h10 : n < 10
    · refine ⟨by simp [natToDecAux, h10], ?_, ?_⟩
      · simp [natToDecAux, h10, digitCh_isDigit n h10]
      · simp [natToDecAux, h10, parseDec, digitVal_digitCh n h10]
    · have hd1 : n / 10 < n := Nat.div_lt_self (by omega) (by omega)
      have hd2 : 0 < n / 10 := Nat.div_pos (by omega) (by omega)
      obtain ⟨hne, hdd, hpd⟩ := ih (n / 10) hd2 (by omega)
      have heq : natToDecAux (fuel + 1) n = natToDecAux fuel (n / 10) ++ [digitCh (n % 10)] := by
        simp [natToDecAux, h10]
      have hm : n % 10 < 10 := Nat.mod_lt n (by omega)
      refine ⟨?_, ?_, ?_⟩
      · rw [heq]
        simp
      · rw [heq]
        simp [List.all_append, hdd, digitCh_isDigit (n % 10) hm]
      · rw [heq, parseDec_concat, hpd, digitVal_digitCh (n % 10) hm]
        omega

theorem natToDec_spec (n : Nat) (h : 0 < n) :
    natToDec n ≠ [] ∧ (natToDec n).all isDigitCh = true ∧ parseDec (natToDec n) = n :=
  natToDecAux_spec n n h (le_refl n)

theorem takeWhile_append_all (p : Char → Bool) (a b : List Char) (h : a.all p = true) :
    (a ++ b).takeWhile p = a ++ b.takeWhile p := by
  induction a with
  | nil => simp
  | cons c cs ih =>
    rw [List.all_cons, Bool.and_eq_true] at h
    simp [List.takeWhile_cons, h.1, ih h.2]

theorem dropWhile_append_all (p : Char → Bool) (a b : List Char) (h : a.all p = true) :
    (a ++ b).dropWhile p = b.dropWhile p := by
  induction a with
  | nil => simp
  | cons c cs ih =>
    rw [List.all_cons, Bool.and_eq_true] at h
    simp [List.dropWhile_cons, h.1, ih h.2]

theorem takeWhile_eq_nil_of_head (p : Char → Bool) (l : List Char) (h : l ≠ [])
    (hp : p (l.headD 'a') = false) : l.takeWhile p = [] := by
  cases l with
  | nil => exact absurd rfl h
  | cons c cs =>
    have : p c = false := by simpa using hp
    simp [List.takeWhile_cons, this]

theorem dropWhile_eq_self_of_head (p : Char → Bool) (l : List Char) (h : l ≠ [])
    (hp : p (l.headD 'a') = false) : l.dropWhile p = l := by
  cases l with
  | nil => exact absurd rfl h
  | cons c cs =>
    have : p c = false := by simpa using hp
    simp [List.dropWhile_cons, this]

theorem parseContract_roundtrip_gen (ds : List Char) (name : String)
    (hne : ds ≠ []) (hdd : ds.all isDigitCh = true) (hlt : parseDec ds < 4294967296)
    (hn : name.toList ≠ []) (hw : name.toList.all isWordCh = true)
    (hh : isDigitCh (name.toList.headD 'a') = false) :
    ParseContract (String.mk ('@' :: (ds ++ name.toList))) = (parseDec ds, name) := by
  show parseContractL ('@' :: (ds ++ name.toList)) = (parseDec ds, name)
  rw [parseContractL]
  rw [if_pos rfl]
  have h1 : (ds ++ name.toList).takeWhile isDigitCh = ds := by
    rw [takeWhile_append_all isDigitCh ds _ hdd,
      takeWhile_eq_nil_of_head isDigitCh name.toList hn hh, List.append_nil]
  have h2 : (ds ++ name.toList).dropWhile isDigitCh = name.toList := by
    rw [dropWhile_append_all isDigitCh ds _ hdd,
      dropWhile_eq_self_of_head isDigitCh name.toList hn hh]
  simp only [h1, h2]
  have h3 : ds.isEmpty = false := by
    cases ds with
    | nil => exact absurd rfl hne
    | cons d dd => rfl
  have h4 : name.toList.isEmpty = false := by
    cases htl : name.toList with
    | nil => exact absurd htl hn
    | cons c cs => rfl
  rw [if_neg (by rw [h3]; decide)]
  rw [if_neg (by rw [h4]; decide)]
  rw [if_pos hw]
  show (if parseDec ds < 4294967296 then parseDec ds else 0, String.mk name.toList) =
    (parseDec ds, name)
  rw [if_pos hlt]
  rfl

/-- C6 (amended): for every id with `0 < id < 2^32` and every non-empty
name of word characters whose FIRST character is not a digit (i.e.
matching `[A-Za-z_][_\w\d]*`), `ParseContract ("@" ++ str(id) ++ name)`
returns exactly `(id, name)`.  The original claim, which also allowed
digit-initial names (`\w` includes digits), is refuted by
`parseContract_roundtrip_cex`: the greedy digit group absorbs the
name's leading digits. -/
theorem parseContract_roundtrip (id : Nat) (name : String)
    (hpos : 0 < id) (hrange : id < 4294967296)
    (hn : name.toList ≠ []) (hw : name.toList.all isWordCh = true)
    (hh : isDigitCh (name.toList.headD 'a') = false) :
    ParseContract ("@" ++ natStr id ++ name) = (id, name) := by
  obtain ⟨hne, hdd, hpd⟩ := natToDec_spec id hpos
  have h := parseContract_roundtrip_gen (natToDec id) name hne hdd
    (by rw [hpd]; exact hrange) hn hw hh
  rw [hpd] at h
  have key : ("@" ++ natStr id ++ name) = String.mk ('@' :: (natToDec id ++ name.toList)) := rfl
  rw [key]
  exact h

/-- Witness for C6 at `id = 5`, `name = "foo"`. -/
theorem parseContract_roundtrip_witness :
    ParseContract ("@" ++ natStr 5 ++ "foo") = (5, "foo") :=
  parseContract_roundtrip 5 "foo" (by decide) (by decide) (by decide) (by decide) (by decide)

/-- C6 counterexample: `id = 1` and `name = "7x"` satisfy the original
claim's hypotheses (`"7x"` matches `\w[_\w\d]*` and 1 is in range), yet
`ParseContract ("@" ++ str(1) ++ "7x") = ParseContract "@17x" = (17, "x")`,
not `(1, "7x")`: the round trip fails. -/
theorem parseContract_roundtrip_cex :
    ("@" ++ natStr 1 ++ "7x") = "@17x" ∧ "7x".toList.all isWordCh = true ∧
    ParseContract "@17x" = (17, "x") ∧ ((17 : Nat), "x") ≠ ((1 : Nat), "7x") := by
  refine ⟨rfl, by decide, by decide, by decide⟩

/-! ### C8: `ExContract` refines the spec-side map-mode wrapper -/

theorem buildArgs_spec (l : List FieldInfo) (ps : List (String × Value)) :
    buildArgs l ps =
      match l.find? (fun f => (List.lookup f.name ps).isNone && !hasOptionalTag f.tags) with
      | some f => Except.error f.name
      | none => Except.ok (l.map (fun f => f.name),
          l.map (fun f => (List.lookup f.name ps).getD Value.null)) := by
  induction l with
  | nil => rfl
  | cons f rest ih =>
    by_cases hpred : ((List.lookup f.name ps).isNone && !hasOptionalTag f.tags) = true
    · rw [List.find?_cons_of_pos _ (by exact hpred)]
      rw [Bool.and_eq_true] at hpred
      obtain ⟨hp1, hp2⟩ := hpred
      rw [Option.isNone_iff_eq_none] at hp1
      have hopt : hasOptionalTag f.tags = false := by
        cases h : hasOptionalTag f.tags
        · rfl
        · rw [h] at hp2
          exact absurd hp2 (by decide)
      simp [buildArgs, hp1, hopt]
    · rw [List.find?_cons_of_neg _ (by simpa using hpred)]
      cases hlk : List.lookup f.name ps with
      | some v =>
        simp only [buildArgs, hlk]
        rw [ih]
        cases hf : rest.find? (fun f => (List.lookup f.name ps).isNone && !hasOptionalTag f.tags) with
        | some g => simp
        | none => simp [hlk]
      | none =>
        have hopt : hasOptionalTag f.tags = true := by
          rw [hlk] at hpred
          simpa using hpred
        simp only [buildArgs, hlk, hopt, if_pos]
        rw [ih]
        cases hf : rest.find? (fun f => (List.lookup f.name ps).isNone && !hasOptionalTag f.tags) with
        | some g => simp
        | none => simp [hlk]

/-- C8: `ExContract(rt, state, name, params)` behaves exactly as the
spec-side wrapper: it qualifies the name with `StateName`, fails with
`UnknownContract` when the qualified name does not resolve, fails with
`UndefinedParam` on the first non-optional schema field absent from
`params` without delegating, and otherwise delegates to `ExecContract`
with the schema names joined by commas in declaration order and the
corresponding values from `params` (nil for absent optional fields),
with a single empty-string value supplied when the schema contributes
no values. -/
theorem exContract_refines (env : ExecEnv) (vm : VMReg) (rt : RTState) (state : Nat)
    (name : String) (params : List (String × Value)) :
    ExContract env vm rt state name params = exContractSpec env vm rt state name params := by
  rcases hobj : regGet vm (StateName state name) with _ | ⟨t, v⟩
  · simp only [ExContract, exContractSpec, hobj]
  · cases v with
    | extv f => simp only [ExContract, exContractSpec, hobj, ObjInfo.value]
    | blockv cb =>
      cases hinf : Block.info cb with
      | contract ci =>
        cases htx : ci.tx with
        | none =>
          simp only [ExContract, exContractSpec, hobj, ObjInfo.value, hinf, htx]
          rfl
        | some l =>
          simp only [ExContract, exContractSpec, hobj, ObjInfo.value, hinf, htx, Option.getD_some]
          rw [buildArgs_spec l params]
          cases hf : l.find? (fun f => (List.lookup f.name params).isNone && !hasOptionalTag f.tags) with
          | some g => simp [hf]
          | none => simp [hf]
      | funcI => simp only [ExContract, exContractSpec, hobj, ObjInfo.value, hinf]
      | noInfo => simp only [ExContract, exContractSpec, hobj, ObjInfo.value, hinf]

/-! ### Phase lemmas for `ExecContract` -/

theorem checkTx_get_preserve (l : List FieldInfo) (pars : List String) (m : EMap) (sig : Bool)
    (k : String) (h : ∀ f ∈ l, f.name ≠ k) :
    emGet (checkTxFields l pars m sig).1 k = emGet m k := by
  induction l generalizing m sig with
  | nil => rfl
  | cons f rest ih =>
    have hf : f.name ≠ k := h f (List.mem_cons_self f rest)
    have hrest : ∀ g ∈ rest, g.name ≠ k := fun g hg => h g (List.mem_cons_of_mem f hg)
    by_cases hc : pars.contains f.name = true
    · simp only [checkTxFields, if_pos hc]
      exact ih m (sig || f.name == "Signature") hrest
    · by_cases hopt : hasOptionalTag f.tags = true
      · simp only [checkTxFields, if_neg hc, if_pos hopt]
        rw [ih _ _ hrest]
        exact emGet_set_ne m f.name k (zeroValue f.type) (fun hk => hf hk.symm)
      · simp only [checkTxFields, if_neg hc, if_neg hopt]

theorem checkTx_map_noopt (l : List FieldInfo) (pars : List String) (m : EMap) (sig : Bool)
    (h : ∀ f ∈ l, hasOptionalTag f.tags = false) :
    (checkTxFields l pars m sig).1 = m := by
  induction l generalizing m sig with
  | nil => rfl
  | cons f rest ih =>
    have hf : ¬hasOptionalTag f.tags = true := by
      rw [h f (List.mem_cons_self f rest)]
      decide
    have hrest : ∀ g ∈ rest, hasOptionalTag g.tags = false :=
      fun g hg => h g (List.mem_cons_of_mem f hg)
    by_cases hc : pars.contains f.name = true
    · simp only [checkTxFields, if_pos hc]
      exact ih m _ hrest
    · simp only [checkTxFields, if_neg hc, if_neg hf]

theorem checkTx_err_none_iff_noopt (l : List FieldInfo) (pars : List String) (m : EMap)
    (sig : Bool) (h : ∀ f ∈ l, hasOptionalTag f.tags = false) :
    (checkTxFields l pars m sig).2.2 = none ↔ ∀ f ∈ l, pars.contains f.name = true := by
  induction l generalizing m sig with
  | nil => simp [checkTxFields]
  | cons f rest ih =>
    have hf : ¬hasOptionalTag f.tags = true := by
      rw [h f (List.mem_cons_self f rest)]
      decide
    have hrest : ∀ g ∈ rest, hasOptionalTag g.tags = false :=
      fun g hg => h g (List.mem_cons_of_mem f hg)
    by_cases hc : pars.contains f.name = true
    · simp only [checkTxFields, if_pos hc]
      rw [ih m _ hrest]
      constructor
      · intro ha g hg
        rcases List.mem_cons.mp hg with hg1 | hg2
        · rw [hg1]
          exact hc
        · exact ha g hg2
      · intro ha g hg
        exact ha g (List.mem_cons_of_mem f hg)
    · simp only [checkTxFields, if_neg hc, if_neg hf]
      constructor
      · intro hcontr
        exact absurd hcontr (by simp)
      · intro ha
        exact absurd (ha f (List.mem_cons_self f rest)) hc

theorem bindPars_nil (m : EMap) (vs : List Value) : bindPars m [] vs = m := by
  cases vs <;> rfl

theorem bindPars_get_preserve (ps : List String) (vs : List Value) (m : EMap) (k : String)
    (h : ps.contains k = false) :
    emGet (bindPars m ps vs) k = emGet m k := by
  induction ps generalizing vs m with
  | nil => rw [bindPars_nil]
  | cons p pr ih =>
    have h' := h
    rw [List.contains_cons] at h'
    have hkp : (k == p) = false := by
      cases hx : (k == p)
      · rfl
      · rw [hx] at h'
        simp at h'
    have hpr : pr.contains k = false := by
      cases hx : pr.contains k
      · rfl
      · rw [hx] at h'
        simp at h'
    cases vs with
    | nil => rfl
    | cons v vr =>
      simp only [bindPars]
      rw [ih vr _ hpr]
      refine emGet_set_ne m p k v ?_
      intro hk
      rw [hk] at hkp
      simp at hkp

theorem methodLoop_cons_none (env : ExecEnv) (cb : Block) (parent meth : String)
    (rest : List String) (m : EMap) (c : Int)
    (hlk : (Block.objects cb).lookupKey meth = none) :
    methodLoop env cb parent (meth :: rest) m c = methodLoop env cb parent rest m c := by
  simp [methodLoop, hlk]

theorem methodLoop_cons_nonfunc (env : ExecEnv) (cb : Block) (parent meth : String)
    (rest : List String) (m : EMap) (c : Int) (obj : ObjInfo)
    (hlk : (Block.objects cb).lookupKey meth = some obj)
    (ht : ¬ObjInfo.otype obj = objFunc) :
    methodLoop env cb parent (meth :: rest) m c = methodLoop env cb parent rest m c := by
  simp [methodLoop, hlk, ht]

theorem methodLoop_cons_func (env : ExecEnv) (cb : Block) (parent meth : String)
    (rest : List String) (m : EMap) (c : Int) (obj : ObjInfo) (mb : Block)
    (hlk : (Block.objects cb).lookupKey meth = some obj)
    (ht : ObjInfo.otype obj = objFunc) (hv : ObjInfo.value obj = ObjValue.blockv mb) :
    methodLoop env cb parent (meth :: rest) m c =
      (if (env.run mb (emSet m "parent" (Value.str parent)) c).2.2 then
        ((env.run mb (emSet m "parent" (Value.str parent)) c).1,
          (env.run mb (emSet m "parent" (Value.str parent)) c).2.1,
          some (ExecErr.methodFail meth))
      else methodLoop env cb parent rest
        (env.run mb (emSet m "parent" (Value.str parent)) c).1
        (env.run mb (emSet m "parent" (Value.str parent)) c).2.1) := by
  simp [methodLoop, hlk, ht, hv]

theorem methodLoop_cons_ext (env : ExecEnv) (cb : Block) (parent meth : String)
    (rest : List String) (m : EMap) (c : Int) (obj : ObjInfo) (f : ExtFuncStub)
    (hlk : (Block.objects cb).lookupKey meth = some obj)
    (ht : ObjInfo.otype obj = objFunc) (hv : ObjInfo.value obj = ObjValue.extv f) :
    methodLoop env cb parent (meth :: rest) m c =
      (emSet m "parent" (Value.str parent), c, some ExecErr.crashed) := by
  simp [methodLoop, hlk, ht, hv]

theorem methodLoop_no_err (env : ExecEnv) (cb : Block) (parent : String) (ms : List String)
    (m : EMap) (c : Int) (hwf : ∀ n ∈ ms, methodWF1 cb n = true)
    (hrun : ∀ b mm cc, (env.run b mm cc).2.2 = false) :
    (methodLoop env cb parent ms m c).2.2 = none := by
  induction ms generalizing m c with
  | nil => rfl
  | cons meth rest ih =>
    have hm : methodWF1 cb meth = true := hwf meth (List.mem_cons_self meth rest)
    have hr : ∀ n ∈ rest, methodWF1 cb n = true :=
      fun n hn => hwf n (List.mem_cons_of_mem meth hn)
    cases hlk : (Block.objects cb).lookupKey meth with
    | none =>
      rw [methodLoop_cons_none env cb parent meth rest m c hlk]
      exact ih _ _ hr
    | some obj =>
      by_cases ht : ObjInfo.otype obj = objFunc
      · cases hv : ObjInfo.value obj with
        | blockv mb =>
          rw [methodLoop_cons_func env cb parent meth rest m c obj mb hlk ht hv]
          rw [hrun mb (emSet m "parent" (Value.str parent)) c]
          simp only [Bool.false_eq_true, if_false]
          exact ih _ _ hr
        | extv f =>
          exfalso
          have : methodWF1 cb meth = false := by
            simp [methodWF1, hlk, ht, hv]
          rw [this] at hm
          exact absurd hm (by decide)
      · rw [methodLoop_cons_nonfunc env cb parent meth rest m c obj hlk ht]
        exact ih _ _ hr

theorem methodLoop_no_methods (env : ExecEnv) (cb : Block) (parent : String) (ms : List String)
    (m : EMap) (c : Int) (h : ∀ n ∈ ms, noMethod1 cb n = true) :
    methodLoop env cb parent ms m c = (m, c, none) := by
  induction ms with
  | nil => rfl
  | cons meth rest ih =>
    have hm : noMethod1 cb meth = true := h meth (List.mem_cons_self meth rest)
    have hr : ∀ n ∈ rest, noMethod1 cb n = true :=
      fun n hn => h n (List.mem_cons_of_mem meth hn)
    cases hlk : (Block.objects cb).lookupKey meth with
    | none =>
      rw [methodLoop_cons_none env cb parent meth rest m c hlk]
      exact ih hr
    | some obj =>
      have ht : ¬ObjInfo.otype obj = objFunc := by
        intro hc
        have : noMethod1 cb meth = false := by
          simp [noMethod1, hlk, hc]
        rw [this] at hm
        exact absurd hm (by decide)
      rw [methodLoop_cons_nonfunc env cb parent meth rest m c obj hlk ht]
      exact ih hr

theorem methodLoop_err_shape (env : ExecEnv) (cb : Block) (parent : String) (ms : List String)
    (m : EMap) (c : Int) (hwf : ∀ n ∈ ms, methodWF1 cb n = true) :
    (methodLoop env cb parent ms m c).2.2 = none ∨
      ∃ s, (methodLoop env cb parent ms m c).2.2 = some (ExecErr.methodFail s) := by
  induction ms generalizing m c with
  | nil => exact Or.inl rfl
  | cons meth rest ih =>
    have hm : methodWF1 cb meth = true := hwf meth (List.mem_cons_self meth rest)
    have hr : ∀ n ∈ rest, methodWF1 cb n = true :=
      fun n hn => hwf n (List.mem_cons_of_mem meth hn)
    cases hlk : (Block.objects cb).lookupKey meth with
    | none =>
      rw [methodLoop_cons_none env cb parent meth rest m c hlk]
      exact ih _ _ hr
    | some obj =>
      by_cases ht : ObjInfo.otype obj = objFunc
      · cases hv : ObjInfo.value obj with
        | blockv mb =>
          rw [methodLoop_cons_func env cb parent meth rest m c obj mb hlk ht hv]
          cases he : (env.run mb (emSet m "parent" (Value.str parent)) c).2.2 with
          | true =>
            refine Or.inr ⟨meth, ?_⟩
            rw [if_pos rfl]
          | false =>
            have hne : ¬(false = true) := by decide
            rw [if_neg hne]
            exact ih _ _ hr
        | extv f =>
          exfalso
          have : methodWF1 cb meth = false := by
            simp [methodWF1, hlk, ht, hv]
          rw [this] at hm
          exact absurd hm (by decide)
      · rw [methodLoop_cons_nonfunc env cb parent meth rest m c obj hlk ht]
        exact ih _ _ hr

theorem sigPhase_scnull (env : ExecEnv) (vm : VMReg) (m : EMap) (name : String) (isSig : Bool)
    (h : (goGet m "sc").isNull = true) :
    sigPhase env vm m name isSig = (m, none) := by
  simp [sigPhase, h]

theorem sigPhase_parent_preserve (env : ExecEnv) (vm : VMReg) (m : EMap) (name : String)
    (isSig : Bool)
    (hsig : ∀ mm nn, goGet ((env.sigCheck mm nn).1) "parent" = goGet mm "parent") :
    goGet (sigPhase env vm m name isSig).1 "parent" = goGet m "parent" := by
  by_cases hc : (!(goGet m "sc").isNull && isSig) = true
  · simp only [sigPhase, if_pos hc]
    cases hr : regGet vm "check_signature" with
    | none => rfl
    | some obj =>
      cases hv : ObjInfo.value obj with
      | extv f =>
        simp only [hv]
        exact hsig m name
      | blockv b => simp only [hv]
  · simp only [sigPhase, if_neg hc]

theorem hookState_scnull (m : EMap) (h : (goGet m "sc").isNull = true) :
    hookState m = HookSt.off := by
  unfold hookState
  cases emGet m "stack_cont" with
  | none => rfl
  | some v => simp [h]

theorem computeParent_of_wf (bs : List Block) (name : String) (h : framesWFB bs = true) :
    ∃ p, computeParent bs name = some p := by
  cases hf : findParentCBlock bs with
  | none => exact ⟨"", by simp [computeParent, hf]⟩
  | some pb =>
    simp only [framesWFB, hf] at h
    cases hinf : Block.info pb with
    | contract ci => exact ⟨rewriteParent ci.name name, by simp [computeParent, hf, hinf]⟩
    | funcI =>
      rw [hinf] at h
      exact absurd h (by decide)
    | noInfo =>
      rw [hinf] at h
      exact absurd h (by decide)

/-! ### Path-reduction lemmas for `ExecContract` -/

theorem methodsWFB_forall (cb : Block) (h : methodsWFB cb = true) :
    ∀ n ∈ methodNames, methodWF1 cb n = true := by
  rw [methodsWFB, Bool.and_eq_true, Bool.and_eq_true] at h
  intro n hn
  simp only [methodNames, List.mem_cons, List.not_mem_nil, or_false] at hn
  rcases hn with rfl | rfl | rfl
  · exact h.1.1
  · exact h.1.2
  · exact h.2

theorem noMethodsB_forall (cb : Block) (h : noMethodsB cb = true) :
    ∀ n ∈ methodNames, noMethod1 cb n = true := by
  rw [noMethodsB, Bool.and_eq_true, Bool.and_eq_true] at h
  intro n hn
  simp only [methodNames, List.mem_cons, List.not_mem_nil, or_false] at hn
  rcases hn with rfl | rfl | rfl
  · exact h.1.1
  · exact h.1.2
  · exact h.2

theorem execContract_notfound (env : ExecEnv) (vm : VMReg) (rt : RTState) (name txs : String)
    (params : List Value) (hres : regGet vm name = none) :
    ExecContract env vm rt name txs params =
      (rt, [], Except.error (ExecErr.unknownContract name)) := by
  simp [ExecContract, hres]

theorem execContract_badparams (env : ExecEnv) (vm : VMReg) (rt : RTState) (name txs : String)
    (params : List Value) (t : Nat) (cb : Block) (ci : ContractInfo)
    (hres : regGet vm name = some (ObjInfo.mk t (ObjValue.blockv cb)))
    (hinf : Block.info cb = BlockInfo.contract ci)
    (hlen : (splitComma txs).length ≠ params.length) :
    ExecContract env vm rt name txs params = (rt, [], Except.error ExecErr.badParams) := by
  simp only [ExecContract, hres, ObjInfo.value, hinf, if_pos hlen]

theorem execContract_undef (env : ExecEnv) (vm : VMReg) (rt : RTState) (name txs : String)
    (params : List Value) (t : Nat) (cb : Block) (ci : ContractInfo) (fn : String)
    (hres : regGet vm name = some (ObjInfo.mk t (ObjValue.blockv cb)))
    (hinf : Block.info cb = BlockInfo.contract ci)
    (hlen : (splitComma txs).length = params.length)
    (hchk : (checkTxWrap ci.tx (splitComma txs) rt.extend).2.2 = some fn) :
    ExecContract env vm rt name txs params =
      ({ rt with extend := (checkTxWrap ci.tx (splitComma txs) rt.extend).1 }, [],
        Except.error (ExecErr.undefinedParam fn)) := by
  have hlen' : ¬(splitComma txs).length ≠ params.length := by
    rw [hlen]
    simp
  simp only [ExecContract, hres, ObjInfo.value, hinf, if_neg hlen', hchk]

theorem execContract_loop (env : ExecEnv) (vm : VMReg) (rt : RTState) (name txs : String)
    (params : List Value) (t : Nat) (cb : Block) (ci : ContractInfo)
    (hres : regGet vm name = some (ObjInfo.mk t (ObjValue.blockv cb)))
    (hinf : Block.info cb = BlockInfo.contract ci)
    (hlen : (splitComma txs).length = params.length)
    (hchk : (checkTxWrap ci.tx (splitComma txs) rt.extend).2.2 = none)
    (hloop : (emGet (checkTxWrap ci.tx (splitComma txs) rt.extend).1 ("loop_" ++ name)).isSome
      = true) :
    ExecContract env vm rt name txs params =
      ({ rt with extend := (checkTxWrap ci.tx (splitComma txs) rt.extend).1 }, [],
        Except.error (ExecErr.contractLoop name)) := by
  have hlen' : ¬(splitComma txs).length ≠ params.length := by
    rw [hlen]
    simp
  simp only [ExecContract, hres, ObjInfo.value, hinf, if_neg hlen', hchk, if_pos hloop]

theorem execContract_reduce (env : ExecEnv) (vm : VMReg) (rt : RTState) (name txs : String)
    (params : List Value) (t : Nat) (cb : Block) (ci : ContractInfo)
    (hres : regGet vm name = some (ObjInfo.mk t (ObjValue.blockv cb)))
    (hinf : Block.info cb = BlockInfo.contract ci)
    (hlen : (splitComma txs).length = params.length)
    (hchk : (checkTxWrap ci.tx (splitComma txs) rt.extend).2.2 = none)
    (hloop : emGet (checkTxWrap ci.tx (splitComma txs) rt.extend).1 ("loop_" ++ name) = none) :
    ExecContract env vm rt name txs params =
      (let m1 := (checkTxWrap ci.tx (splitComma txs) rt.extend).1
       let isSig := (checkTxWrap ci.tx (splitComma txs) rt.extend).2.1
       let r := execAfterGuard env vm
         { rt with extend := emSet m1 ("loop_" ++ name) (Value.bool true) } name cb isSig
         (splitComma txs) params
       ({ r.1 with extend := emDel r.1.extend ("loop_" ++ name) }, r.2.1, r.2.2)) := by
  have hlen' : ¬(splitComma txs).length ≠ params.length := by
    rw [hlen]
    simp
  have hl : ¬(emGet (checkTxWrap ci.tx (splitComma txs) rt.extend).1 ("loop_" ++ name)).isSome
      = true := by
    rw [hloop]
    simp
  simp only [ExecContract, hres, ObjInfo.value, hinf, if_neg hlen', hchk, if_neg hl]

theorem execAfterGuard_scnull (env : ExecEnv) (vm : VMReg) (rt : RTState) (name : String)
    (cb : Block) (isSig : Bool) (pars : List String) (params : List Value) (p : String)
    (hpar : computeParent rt.blocks name = some p)
    (hsc : (goGet (bindPars rt.extend pars params) "sc").isNull = true) :
    execAfterGuard env vm rt name cb isSig pars params =
      (let m3 := bindPars rt.extend pars params
       let r := methodLoop env cb p methodNames m3 (rt.cost - costContract)
       match r.2.2 with
       | some e => ({ rt with extend := r.1, cost := r.2.1 }, [], Except.error e)
       | none =>
         let m6 := emSet r.1 "parent" (goGet m3 "parent")
         ({ rt with extend := m6, cost := r.2.1 }, [],
           Except.ok (if (goGet m6 "result").isNull then ""
             else sprintValue (goGet m6 "result")))) := by
  have hoff : ¬(HookSt.off = HookSt.fire) := by decide
  simp only [execAfterGuard, hpar, hookState_scnull _ hsc,
    sigPhase_scnull env vm _ name isSig hsc, if_neg hoff]
  cases hr : (methodLoop env cb p methodNames (bindPars rt.extend pars params)
      (rt.cost - costContract)).2.2 with
  | some e => simp
  | none => simp

/-! ### C1: the schema-match characterisation of success -/

/-- C1 (amended): for a contract with a non-empty `tx` schema and no
optional fields — assuming the loop-guard key is absent at entry,
`extend["sc"]` is nil and stays unbound by `tx_spec`, the frame stack
and the method slots are well formed, and no method run errors —
`ExecContract` succeeds iff every schema field name appears in the
comma-split `tx_spec` (at least once; the original claim's "exactly
once" is refuted by `execContract_schema_iff_cex`) and the number of
values equals the number of names in `tx_spec`. -/
theorem execContract_schema_iff (env : ExecEnv) (vm : VMReg) (rt : RTState)
    (name txs : String) (params : List Value) (t : Nat) (cb : Block) (ci : ContractInfo)
    (l : List FieldInfo)
    (hres : regGet vm name = some (ObjInfo.mk t (ObjValue.blockv cb)))
    (hinf : Block.info cb = BlockInfo.contract ci)
    (htx : ci.tx = some l) (hne : l ≠ [])
    (hopt : ∀ f ∈ l, hasOptionalTag f.tags = false)
    (hloop : emGet rt.extend ("loop_" ++ name) = none)
    (hsc : goGet rt.extend "sc" = Value.null)
    (hscp : (splitComma txs).contains "sc" = false)
    (hfr : framesWFB rt.blocks = true)
    (hwm : methodsWFB cb = true)
    (hrun : ∀ b mm cc, (env.run b mm cc).2.2 = false) :
    (∃ s, (ExecContract env vm rt name txs params).2.2 = Except.ok s) ↔
      ((∀ f ∈ l, (splitComma txs).contains f.name = true) ∧
        (splitComma txs).length = params.length) := by
  constructor
  · rintro ⟨s, hs⟩
    by_cases hlen : (splitComma txs).length = params.length
    · refine ⟨?_, hlen⟩
      by_contra hmem
      have herr : (checkTxWrap ci.tx (splitComma txs) rt.extend).2.2 ≠ none := by
        rw [htx]
        intro hnone
        exact hmem ((checkTx_err_none_iff_noopt l _ _ _ hopt).mp hnone)
      rcases ho : (checkTxWrap ci.tx (splitComma txs) rt.extend).2.2 with _ | fn
      · exact absurd ho herr
      · rw [execContract_undef env vm rt name txs params t cb ci fn hres hinf hlen ho] at hs
        exact absurd hs (by simp)
    · rw [execContract_badparams env vm rt name txs params t cb ci hres hinf hlen] at hs
      exact absurd hs (by simp)
  · rintro ⟨hmem, hlen⟩
    have hchk : (checkTxWrap ci.tx (splitComma txs) rt.extend).2.2 = none := by
      rw [htx]
      exact (checkTx_err_none_iff_noopt l _ _ _ hopt).mpr hmem
    have hmap : (checkTxWrap ci.tx (splitComma txs) rt.extend).1 = rt.extend := by
      rw [htx]
      exact checkTx_map_noopt l _ _ _ hopt
    have hloop1 : emGet (checkTxWrap ci.tx (splitComma txs) rt.extend).1 ("loop_" ++ name)
        = none := by
      rw [hmap]
      exact hloop
    rw [execContract_reduce env vm rt name txs params t cb ci hres hinf hlen hchk hloop1]
    simp only [hmap]
    obtain ⟨p, hp⟩ := computeParent_of_wf rt.blocks name hfr
    have hsc3 : (goGet (bindPars (emSet rt.extend ("loop_" ++ name) (Value.bool true))
        (splitComma txs) params) "sc").isNull = true := by
      have e1 : emGet (bindPars (emSet rt.extend ("loop_" ++ name) (Value.bool true))
          (splitComma txs) params) "sc" =
          emGet (emSet rt.extend ("loop_" ++ name) (Value.bool true)) "sc" :=
        bindPars_get_preserve (splitComma txs) params _ "sc" hscp
      have e2 : emGet (emSet rt.extend ("loop_" ++ name) (Value.bool true)) "sc" =
          emGet rt.extend "sc" :=
        emGet_set_ne rt.extend ("loop_" ++ name) "sc" (Value.bool true)
          (Ne.symm (loopKey_ne_sc name))
      show ((emGet _ "sc").getD Value.null).isNull = true
      rw [e1, e2]
      have : (emGet rt.extend "sc").getD Value.null = Value.null := hsc
      rw [this]
      rfl
    rw [execAfterGuard_scnull env vm
      { blocks := rt.blocks, cost := rt.cost,
        extend := emSet rt.extend ("loop_" ++ name) (Value.bool true) }
      name cb ((checkTxWrap ci.tx (splitComma txs) rt.extend).2.1) (splitComma txs) params p
      hp hsc3]
    have hml : (methodLoop env cb p methodNames
        (bindPars (emSet rt.extend ("loop_" ++ name) (Value.bool true)) (splitComma txs) params)
        (rt.cost - costContract)).2.2 = none :=
      methodLoop_no_err env cb p methodNames _ _ (methodsWFB_forall cb hwm) hrun
    simp only [hml]
    exact ⟨_, rfl⟩

/-- Fixture: an interpreter oracle whose runs and signature checks
always succeed and leave the state unchanged. -/
def envOk : ExecEnv := { run := fun _ m c => (m, c, false), sigCheck := fun m _ => (m, false) }

/-- Fixture: an interpreter oracle whose runs always error. -/
def envErr : ExecEnv := { run := fun _ m c => (m, c, true), sigCheck := fun m _ => (m, false) }

/-- Fixture: `ContractInfo` of a contract `Greet` with schema
`[Who: string]` (no optional fields). -/
def greetCI : ContractInfo :=
  { id := 0, name := "Greet", tx := some [⟨"Who", .tyString, ""⟩], settings := none }

/-- Fixture: the block of `Greet` (no methods). -/
def greetBlock : Block := .mk .nil objContract (.contract greetCI) none

/-- Fixture: a registry holding only `Greet`. -/
def greetVM : VMReg :=
  .mk (.cons "Greet" (.mk objContract (.blockv greetBlock)) .nil) objUnknown .noInfo none

/-- Fixture: a fresh runtime with an empty extend map. -/
def rt0 : RTState := { blocks := [], cost := 1000, extend := [] }

/-- C1 counterexample: with the schema name `Who` duplicated in
`tx_spec` ("Who,Who") and two values, `ExecContract` SUCCEEDS although
`Who` does not appear exactly once — refuting the claim's "exactly
once" condition as stated. -/
theorem execContract_schema_iff_cex :
    (ExecContract envOk greetVM rt0 "Greet" "Who,Who" [Value.str "Ada", Value.str "Bob"]).2.2
        = Except.ok "" ∧
    (splitComma "Who,Who").count "Who" = 2 ∧
    (splitComma "Who,Who").length = 2 := by
  exact ⟨rfl, by decide, by decide⟩

/-- Witness for C1 at the `Greet` fixture with a matching call. -/
theorem execContract_schema_iff_witness :
    ∃ s, (ExecContract envOk greetVM rt0 "Greet" "Who" [Value.str "Ada"]).2.2
      = Except.ok s :=
  (execContract_schema_iff envOk greetVM rt0 "Greet" "Who" [Value.str "Ada"]
    objContract greetBlock greetCI [⟨"Who", GoType.tyString, ""⟩]
    rfl rfl rfl (by decide) (by decide) rfl rfl (by decide) rfl (by decide)
    (fun _ _ _ => rfl)).mpr ⟨by decide, by decide⟩

/-! ### C10: the empty `tx_spec` -/

/-- C10: splitting the empty string on `,` yields the single empty
name, so with an empty `tx_spec` a resolved contract fails with
`BadContractParams` for every number of values other than one; with
exactly one value the length check passes and (in a benign environment
that reaches the binding and returns) that value ends up bound under
the empty-string key in `extend` — which is why `ExContract` appends
the empty-string dummy value. -/
theorem execContract_empty_txspec (env : ExecEnv) (vm : VMReg) (rt : RTState) (name : String)
    (params : List Value) (t : Nat) (cb : Block) (ci : ContractInfo)
    (hres : regGet vm name = some (ObjInfo.mk t (ObjValue.blockv cb)))
    (hinf : Block.info cb = BlockInfo.contract ci) :
    splitComma "" = [""] ∧
    (params.length ≠ 1 →
      ExecContract env vm rt name "" params = (rt, [], Except.error ExecErr.badParams)) ∧
    (∀ v, params = [v] → ci.tx = none →
      emGet rt.extend ("loop_" ++ name) = none →
      goGet rt.extend "sc" = Value.null →
      framesWFB rt.blocks = true →
      noMethodsB cb = true →
      emGet (ExecContract env vm rt name "" params).1.extend "" = some v ∧
      (∃ s, (ExecContract env vm rt name "" params).2.2 = Except.ok s)) := by
  refine ⟨rfl, ?_, ?_⟩
  · intro hlen
    have h1 : (splitComma "").length ≠ params.length := fun hh => hlen hh.symm
    exact execContract_badparams env vm rt name "" params t cb ci hres hinf h1
  · intro v hv htx hloop hsc hfr hnm
    subst hv
    have hchk : (checkTxWrap ci.tx (splitComma "") rt.extend).2.2 = none := by
      rw [htx]
      rfl
    have hmap : (checkTxWrap ci.tx (splitComma "") rt.extend).1 = rt.extend := by
      rw [htx]
      rfl
    have hlen : (splitComma "").length = [v].length := rfl
    have hloop1 : emGet (checkTxWrap ci.tx (splitComma "") rt.extend).1 ("loop_" ++ name)
        = none := by
      rw [hmap]
      exact hloop
    rw [execContract_reduce env vm rt name "" [v] t cb ci hres hinf hlen hchk hloop1]
    simp only [hmap]
    obtain ⟨p, hp⟩ := computeParent_of_wf rt.blocks name hfr
    have hb : bindPars (emSet rt.extend ("loop_" ++ name) (Value.bool true)) (splitComma "") [v]
        = emSet (emSet rt.extend ("loop_" ++ name) (Value.bool true)) "" v := rfl
    have hsc3 : (goGet (bindPars (emSet rt.extend ("loop_" ++ name) (Value.bool true))
        (splitComma "") [v]) "sc").isNull = true := by
      rw [hb]
      show ((emGet _ "sc").getD Value.null).isNull = true
      rw [emGet_set_ne _ "" "sc" v (by decide),
        emGet_set_ne _ _ "sc" _ (Ne.symm (loopKey_ne_sc name))]
      have hv0 : (emGet rt.extend "sc").getD Value.null = Value.null := hsc
      rw [hv0]
      rfl
    rw [execAfterGuard_scnull env vm
      { blocks := rt.blocks, cost := rt.cost,
        extend := emSet rt.extend ("loop_" ++ name) (Value.bool true) }
      name cb ((checkTxWrap ci.tx (splitComma "") rt.extend).2.1) (splitComma "") [v] p
      hp hsc3]
    have hml := methodLoop_no_methods env cb p methodNames
      (bindPars (emSet rt.extend ("loop_" ++ name) (Value.bool true)) (splitComma "") [v])
      (rt.cost - costContract) (noMethodsB_forall cb hnm)
    simp only [hml]
    constructor
    · rw [emGet_del_ne _ _ "" (Ne.symm (loopKey_ne_empty name))]
      rw [emGet_set_ne _ "parent" "" _ (by decide)]
      rw [hb]
      exact emGet_set_self _ "" v
    · exact ⟨_, rfl⟩

/-- Fixture: a contract `D` with no `tx` schema and no methods. -/
def noTxCI : ContractInfo := { id := 0, name := "D", tx := none, settings := none }

/-- Fixture: the block of `D`. -/
def noTxBlock : Block := .mk .nil objContract (.contract noTxCI) none

/-- Fixture: a registry holding only `D`. -/
def noTxVM : VMReg :=
  .mk (.cons "D" (.mk objContract (.blockv noTxBlock)) .nil) objUnknown .noInfo none

/-- Witness for C10 at the `D` fixture: the single value is bound under
the empty-string key and the call succeeds. -/
theorem execContract_empty_txspec_witness :
    emGet (ExecContract envOk noTxVM rt0 "D" "" [Value.str "solo"]).1.extend ""
        = some (Value.str "solo") ∧
    (∃ s, (ExecContract envOk noTxVM rt0 "D" "" [Value.str "solo"]).2.2 = Except.ok s) :=
  (execContract_empty_txspec envOk noTxVM rt0 "D" [Value.str "solo"] objContract noTxBlock
    noTxCI rfl rfl).2.2 (Value.str "solo") rfl rfl rfl rfl rfl rfl

/-! ### Error-shape lemmas -/

theorem sigPhase_err_shape (env : ExecEnv) (vm : VMReg) (m : EMap) (name : String)
    (isSig : Bool) :
    (sigPhase env vm m name isSig).2 = none ∨
    (sigPhase env vm m name isSig).2 = some ExecErr.crashed ∨
    (sigPhase env vm m name isSig).2 = some ExecErr.sigFail := by
  by_cases hc : (!(goGet m "sc").isNull && isSig) = true
  · cases hr : regGet vm "check_signature" with
    | none => simp [sigPhase, hc, hr]
    | some obj =>
      cases hv : ObjInfo.value obj with
      | extv f =>
        cases he : (env.sigCheck m name).2 with
        | true => simp [sigPhase, hc, hr, hv, he]
        | false => simp [sigPhase, hc, hr, hv, he]
      | blockv b => simp [sigPhase, hc, hr, hv]
  · simp [sigPhase, hc]

theorem methodLoop_err_cases (env : ExecEnv) (cb : Block) (parent : String) (ms : List String)
    (m : EMap) (c : Int) :
    (methodLoop env cb parent ms m c).2.2 = none ∨
    (methodLoop env cb parent ms m c).2.2 = some ExecErr.crashed ∨
    ∃ s, (methodLoop env cb parent ms m c).2.2 = some (ExecErr.methodFail s) := by
  induction ms generalizing m c with
  | nil => exact Or.inl rfl
  | cons meth rest ih =>
    cases hlk : (Block.objects cb).lookupKey meth with
    | none =>
      rw [methodLoop_cons_none env cb parent meth rest m c hlk]
      exact ih _ _
    | some obj =>
      by_cases ht : ObjInfo.otype obj = objFunc
      · cases hv : ObjInfo.value obj with
        | blockv mb =>
          rw [methodLoop_cons_func env cb parent meth rest m c obj mb hlk ht hv]
          cases he : (env.run mb (emSet m "parent" (Value.str parent)) c).2.2 with
          | true =>
            refine Or.inr (Or.inr ⟨meth, ?_⟩)
            rw [if_pos rfl]
          | false =>
            have hne : ¬(false = true) := by decide
            rw [if_neg hne]
            exact ih _ _
        | extv f =>
          rw [methodLoop_cons_ext env cb parent meth rest m c obj f hlk ht hv]
          exact Or.inr (Or.inl rfl)
      · rw [methodLoop_cons_nonfunc env cb parent meth rest m c obj hlk ht]
        exact ih _ _

theorem execAfterGuard_ne_loop (env : ExecEnv) (vm : VMReg) (rt : RTState) (name : String)
    (cb : Block) (isSig : Bool) (pars : List String) (params : List Value) (n : String) :
    (execAfterGuard env vm rt name cb isSig pars params).2.2 ≠
      Except.error (ExecErr.contractLoop n) := by
  intro hcontr
  unfold execAfterGuard at hcontr
  cases hp : computeParent rt.blocks name with
  | none =>
    simp only [hp] at hcontr
    simp at hcontr
  | some parent =>
    simp only [hp] at hcontr
    cases hh : hookState (bindPars rt.extend pars params) with
    | bad =>
      simp only [hh] at hcontr
      simp at hcontr
    | off =>
      simp only [hh] at hcontr
      rcases sigPhase_err_shape env vm (bindPars rt.extend pars params) name isSig with
        hs | hs | hs
      · simp only [hs] at hcontr
        rcases methodLoop_err_cases env cb parent methodNames
            (sigPhase env vm (bindPars rt.extend pars params) name isSig).1
            (rt.cost - costContract) with hm | hm | ⟨s, hm⟩ <;>
          simp only [hm] at hcontr <;> simp at hcontr
      · simp only [hs] at hcontr
        simp at hcontr
      · simp only [hs] at hcontr
        simp at hcontr
    | fire =>
      simp only [hh] at hcontr
      rcases sigPhase_err_shape env vm (bindPars rt.extend pars params) name isSig with
        hs | hs | hs
      · simp only [hs] at hcontr
        rcases methodLoop_err_cases env cb parent methodNames
            (sigPhase env vm (bindPars rt.extend pars params) name isSig).1
            (rt.cost - costContract) with hm | hm | ⟨s, hm⟩ <;>
          simp only [hm] at hcontr <;> simp at hcontr
      · simp only [hs] at hcontr
        simp at hcontr
      · simp only [hs] at hcontr
        simp at hcontr

theorem fieldsAvoidB_spec (vm : VMReg) (name key : String) (t : Nat) (cb : Block)
    (ci : ContractInfo) (l : List FieldInfo)
    (hres : regGet vm name = some (ObjInfo.mk t (ObjValue.blockv cb)))
    (hinf : Block.info cb = BlockInfo.contract ci) (htx : ci.tx = some l)
    (h : fieldsAvoidB vm name key = true) :
    ∀ f ∈ l, f.name ≠ key := by
  simp only [fieldsAvoidB, hres, ObjInfo.value, hinf, htx] at h
  intro f hf
  have := List.all_eq_true.mp h f hf
  simpa using this

/-! ### C3: the `loop_<name>` recursion guard -/

/-- C3 (amended): provided no declared schema field is named
`"loop_" + name` (without this proviso the claim is refuted by
`execContract_loop_guard_cex`, where an optional field of that name is
defaulted into `extend` before the guard check): (1) on every return
path the guard key is present in `extend` at return iff it was present
at entry, and (2) when the name resolves to a contract and the schema
and required-parameter checks pass, the call returns `ContractLoop` iff
the guard key was present at entry. -/
theorem execContract_loop_guard (env : ExecEnv) (vm : VMReg) (rt : RTState)
    (name txs : String) (params : List Value)
    (hf : fieldsAvoidB vm name ("loop_" ++ name) = true) :
    ((emGet (ExecContract env vm rt name txs params).1.extend ("loop_" ++ name)).isSome
      = (emGet rt.extend ("loop_" ++ name)).isSome) ∧
    (schemaPassB vm name txs params rt.extend = true →
      ((ExecContract env vm rt name txs params).2.2 = Except.error (ExecErr.contractLoop name) ↔
        (emGet rt.extend ("loop_" ++ name)).isSome = true)) := by
  rcases hres : regGet vm name with _ | ⟨t, v⟩
  · rw [execContract_notfound env vm rt name txs params hres]
    refine ⟨rfl, ?_⟩
    intro hpass
    simp only [schemaPassB, hres] at hpass
    exact absurd hpass (by decide)
  · cases v with
    | extv f =>
      have hred : ExecContract env vm rt name txs params =
          (rt, [], Except.error ExecErr.crashed) := by
        simp [ExecContract, hres, ObjInfo.value]
      rw [hred]
      refine ⟨rfl, ?_⟩
      intro hpass
      simp only [schemaPassB, hres, ObjInfo.value] at hpass
      exact absurd hpass (by decide)
    | blockv cb =>
      cases hinf : Block.info cb with
      | funcI =>
        have hred : ExecContract env vm rt name txs params =
            (rt, [], Except.error ExecErr.crashed) := by
          simp [ExecContract, hres, ObjInfo.value, hinf]
        rw [hred]
        refine ⟨rfl, ?_⟩
        intro hpass
        simp only [schemaPassB, hres, ObjInfo.value, hinf] at hpass
        exact absurd hpass (by decide)
      | noInfo =>
        have hred : ExecContract env vm rt name txs params =
            (rt, [], Except.error ExecErr.crashed) := by
          simp [ExecContract, hres, ObjInfo.value, hinf]
        rw [hred]
        refine ⟨rfl, ?_⟩
        intro hpass
        simp only [schemaPassB, hres, ObjInfo.value, hinf] at hpass
        exact absurd hpass (by decide)
      | contract ci =>
        have hpres : emGet (checkTxWrap ci.tx (splitComma txs) rt.extend).1 ("loop_" ++ name)
            = emGet rt.extend ("loop_" ++ name) := by
          cases htx : ci.tx with
          | none => rfl
          | some l =>
            exact checkTx_get_preserve l _ _ _ _
              (fieldsAvoidB_spec vm name ("loop_" ++ name) t cb ci l hres hinf htx hf)
        by_cases hlen : (splitComma txs).length = params.length
        · cases herr : (checkTxWrap ci.tx (splitComma txs) rt.extend).2.2 with
          | some fn =>
            rw [execContract_undef env vm rt name txs params t cb ci fn hres hinf hlen herr]
            refine ⟨by rw [hpres], ?_⟩
            intro hpass
            simp only [schemaPassB, hres, ObjInfo.value, hinf, herr] at hpass
            simp at hpass
          | none =>
            by_cases hguard : (emGet (checkTxWrap ci.tx (splitComma txs) rt.extend).1
                ("loop_" ++ name)).isSome = true
            · rw [execContract_loop env vm rt name txs params t cb ci hres hinf hlen herr
                hguard]
              refine ⟨by rw [hpres], ?_⟩
              intro _
              constructor
              · intro _
                rw [← hpres]
                exact hguard
              · intro _
                rfl
            · have hg0 : emGet (checkTxWrap ci.tx (splitComma txs) rt.extend).1
                  ("loop_" ++ name) = none := by
                cases hg : emGet (checkTxWrap ci.tx (splitComma txs) rt.extend).1
                    ("loop_" ++ name) with
                | none => rfl
                | some w =>
                  have hws : (emGet (checkTxWrap ci.tx (splitComma txs) rt.extend).1
                      ("loop_" ++ name)).isSome = true := by
                    rw [hg]
                    rfl
                  exact absurd hws hguard
              rw [execContract_reduce env vm rt name txs params t cb ci hres hinf hlen herr
                hg0]
              refine ⟨?_, ?_⟩
              · rw [emGet_del_self]
                have : (emGet rt.extend ("loop_" ++ name)).isSome = false := by
                  rw [← hpres, hg0]
                  rfl
                rw [this]
                rfl
              · intro _
                constructor
                · intro hcontr
                  exact absurd hcontr (execAfterGuard_ne_loop env vm _ name cb _
                    (splitComma txs) params name)
                · intro hin
                  rw [← hpres, hg0] at hin
                  exact absurd hin (by decide)
        · rw [execContract_badparams env vm rt name txs params t cb ci hres hinf hlen]
          refine ⟨rfl, ?_⟩
          intro hpass
          simp only [schemaPassB, hres, ObjInfo.value, hinf] at hpass
          rw [Bool.and_eq_true] at hpass
          exact absurd (eq_of_beq hpass.1) hlen

/-- Fixture: a contract `C3x` whose only schema field is the OPTIONAL
field named `loop_C3x` — the name of its own recursion-guard key. -/
def loopFieldCI : ContractInfo :=
  { id := 0, name := "C3x", tx := some [⟨"loop_C3x", .tyString, "optional"⟩], settings := none }

/-- Fixture: the block of `C3x`. -/
def loopFieldBlock : Block := .mk .nil objContract (.contract loopFieldCI) none

/-- Fixture: a registry holding only `C3x`. -/
def loopFieldVM : VMReg :=
  .mk (.cons "C3x" (.mk objContract (.blockv loopFieldBlock)) .nil) objUnknown .noInfo none

/-- C3 counterexample: calling `C3x` with the guard key ABSENT from
`extend` still returns `ContractLoop` (the optional-field default set
the key just before the guard check), and the key is present at return
though absent at entry — refuting both parts of the claim as stated. -/
theorem execContract_loop_guard_cex :
    emGet rt0.extend "loop_C3x" = none ∧
    (ExecContract envOk loopFieldVM rt0 "C3x" "x" [Value.str "v"]).2.2
        = Except.error (ExecErr.contractLoop "C3x") ∧
    (emGet (ExecContract envOk loopFieldVM rt0 "C3x" "x" [Value.str "v"]).1.extend
      "loop_C3x").isSome = true := by
  exact ⟨rfl, rfl, rfl⟩

/-- Fixture: a runtime whose extend map holds the `Greet` guard key. -/
def rtLoop : RTState :=
  { blocks := [], cost := 1000, extend := [("loop_Greet", .bool true)] }

/-- Witness for C3 at the `Greet` fixture with the guard preset. -/
theorem execContract_loop_guard_witness :
    ((ExecContract envOk greetVM rtLoop "Greet" "Who" [Value.str "Ada"]).2.2
        = Except.error (ExecErr.contractLoop "Greet") ↔
      (emGet rtLoop.extend ("loop_" ++ "Greet")).isSome = true) :=
  (execContract_loop_guard envOk greetVM rtLoop "Greet" "Who" [Value.str "Ada"] rfl).2 rfl

/-! ### C2: `extend["parent"]` across return paths -/

theorem execAfterGuard_parent (env : ExecEnv) (vm : VMReg) (rt : RTState) (name : String)
    (cb : Block) (isSig : Bool) (pars : List String) (params : List Value)
    (hwf : ∀ n ∈ methodNames, methodWF1 cb n = true)
    (hpp : pars.contains "parent" = false)
    (hsig : ∀ mm nn, goGet ((env.sigCheck mm nn).1) "parent" = goGet mm "parent")
    (hnm : ∀ s, (execAfterGuard env vm rt name cb isSig pars params).2.2 ≠
      Except.error (ExecErr.methodFail s)) :
    goGet (execAfterGuard env vm rt name cb isSig pars params).1.extend "parent"
      = goGet rt.extend "parent" := by
  have hm3 : goGet (bindPars rt.extend pars params) "parent" = goGet rt.extend "parent" := by
    show (emGet _ "parent").getD Value.null = _
    rw [bindPars_get_preserve pars params rt.extend "parent" hpp]
    rfl
  have hsp := sigPhase_parent_preserve env vm (bindPars rt.extend pars params) name isSig hsig
  unfold execAfterGuard at hnm ⊢
  cases hp : computeParent rt.blocks name with
  | none =>
    simp only [hp]
    exact hm3
  | some parent =>
    simp only [hp] at hnm ⊢
    cases hh : hookState (bindPars rt.extend pars params) with
    | bad =>
      simp only [hh]
      exact hm3
    | off =>
      simp only [hh] at hnm ⊢
      cases hspe : (sigPhase env vm (bindPars rt.extend pars params) name isSig).2 with
      | some e =>
        simp only [hspe]
        exact hsp.trans hm3
      | none =>
        simp only [hspe] at hnm ⊢
        rcases methodLoop_err_shape env cb parent methodNames
            (sigPhase env vm (bindPars rt.extend pars params) name isSig).1
            (rt.cost - costContract) hwf with hml | ⟨s, hml⟩
        · simp only [hml]
          show goGet (emSet _ "parent" _) "parent" = _
          rw [goGet_set_self]
          exact hm3
        · exfalso
          apply hnm s
          simp only [hml]
    | fire =>
      simp only [hh] at hnm ⊢
      cases hspe : (sigPhase env vm (bindPars rt.extend pars params) name isSig).2 with
      | some e =>
        simp only [hspe]
        exact hsp.trans hm3
      | none =>
        simp only [hspe] at hnm ⊢
        rcases methodLoop_err_shape env cb parent methodNames
            (sigPhase env vm (bindPars rt.extend pars params) name isSig).1
            (rt.cost - costContract) hwf with hml | ⟨s, hml⟩
        · simp only [hml]
          show goGet (emSet _ "parent" _) "parent" = _
          rw [goGet_set_self]
          exact hm3
        · exfalso
          apply hnm s
          simp only [hml]

/-- C2 (amended): `extend["parent"]` (as read by a Go map access) is
unchanged at return on every return path EXCEPT a mid-method error —
provided no schema field or `tx_spec` name is `"parent"`, the method
slots are well typed, and the signature hook preserves the key.  On a
method error the restore at the end of `ExecContract` is skipped and
`extend["parent"]` keeps whatever the failing method run left
(`execContract_parent_cex`). -/
theorem execContract_parent (env : ExecEnv) (vm : VMReg) (rt : RTState)
    (name txs : String) (params : List Value)
    (hfp : fieldsAvoidB vm name "parent" = true)
    (hwm : methodsOkB vm name = true)
    (hpp : (splitComma txs).contains "parent" = false)
    (hsig : ∀ mm nn, goGet ((env.sigCheck mm nn).1) "parent" = goGet mm "parent")
    (hnm : ∀ s, (ExecContract env vm rt name txs params).2.2 ≠
      Except.error (ExecErr.methodFail s)) :
    goGet (ExecContract env vm rt name txs params).1.extend "parent"
      = goGet rt.extend "parent" := by
  rcases hres : regGet vm name with _ | ⟨t, v⟩
  · rw [execContract_notfound env vm rt name txs params hres]
  · cases v with
    | extv f =>
      have hred : ExecContract env vm rt name txs params =
          (rt, [], Except.error ExecErr.crashed) := by
        simp [ExecContract, hres, ObjInfo.value]
      rw [hred]
    | blockv cb =>
      cases hinf : Block.info cb with
      | funcI =>
        have hred : ExecContract env vm rt name txs params =
            (rt, [], Except.error ExecErr.crashed) := by
          simp [ExecContract, hres, ObjInfo.value, hinf]
        rw [hred]
      | noInfo =>
        have hred : ExecContract env vm rt name txs params =
            (rt, [], Except.error ExecErr.crashed) := by
          simp [ExecContract, hres, ObjInfo.value, hinf]
        rw [hred]
      | contract ci =>
        have hck : emGet (checkTxWrap ci.tx (splitComma txs) rt.extend).1 "parent"
            = emGet rt.extend "parent" := by
          cases htx : ci.tx with
          | none => rfl
          | some l =>
            simp only [checkTxWrap, htx]
            exact checkTx_get_preserve l (splitComma txs) rt.extend false "parent"
              (fieldsAvoidB_spec vm name "parent" t cb ci l hres hinf htx hfp)
        have hckg : goGet (checkTxWrap ci.tx (splitComma txs) rt.extend).1 "parent"
            = goGet rt.extend "parent" := by
          show (emGet _ "parent").getD Value.null = _
          rw [hck]
          rfl
        by_cases hlen : (splitComma txs).length = params.length
        · cases herr : (checkTxWrap ci.tx (splitComma txs) rt.extend).2.2 with
          | some fn =>
            rw [execContract_undef env vm rt name txs params t cb ci fn hres hinf hlen herr]
            exact hckg
          | none =>
            by_cases hguard : (emGet (checkTxWrap ci.tx (splitComma txs) rt.extend).1
                ("loop_" ++ name)).isSome = true
            · rw [execContract_loop env vm rt name txs params t cb ci hres hinf hlen herr
                hguard]
              exact hckg
            · have hg0 : emGet (checkTxWrap ci.tx (splitComma txs) rt.extend).1
                  ("loop_" ++ name) = none := by
                cases hg : emGet (checkTxWrap ci.tx (splitComma txs) rt.extend).1
                    ("loop_" ++ name) with
                | none => rfl
                | some w =>
                  have hws : (emGet (checkTxWrap ci.tx (splitComma txs) rt.extend).1
                      ("loop_" ++ name)).isSome = true := by
                    rw [hg]
                    rfl
                  exact absurd hws hguard
              have hred := execContract_reduce env vm rt name txs params t cb ci hres hinf
                hlen herr hg0
              rw [hred] at hnm ⊢
              have hwf : ∀ n ∈ methodNames, methodWF1 cb n = true := by
                refine methodsWFB_forall cb ?_
                simp only [methodsOkB, hres, ObjInfo.value] at hwm
                exact hwm
              have hag := execAfterGuard_parent env vm
                { blocks := rt.blocks, cost := rt.cost,
                  extend := emSet (checkTxWrap ci.tx (splitComma txs) rt.extend).1
                    ("loop_" ++ name) (Value.bool true) }
                name cb ((checkTxWrap ci.tx (splitComma txs) rt.extend).2.1)
                (splitComma txs) params hwf hpp hsig hnm
              show (emGet (emDel _ ("loop_" ++ name)) "parent").getD Value.null = _
              rw [emGet_del_ne _ _ "parent" (Ne.symm (loopKey_ne_parent name))]
              have : goGet (emSet (checkTxWrap ci.tx (splitComma txs) rt.extend).1
                  ("loop_" ++ name) (Value.bool true)) "parent"
                  = goGet rt.extend "parent" := by
                rw [goGet_set_ne _ _ "parent" _ (Ne.symm (loopKey_ne_parent name))]
                exact hckg
              exact hag.trans this
        · rw [execContract_badparams env vm rt name txs params t cb ci hres hinf hlen]

/-- Fixture: an empty function block (the body is irrelevant — the
oracle decides what a run does). -/
def initBlock : Block := .mk .nil objFunc .funcI none

/-- Fixture: `ContractInfo` of a contract `C5` with no schema and an
`init` method. -/
def c5CI : ContractInfo := { id := 0, name := "C5", tx := none, settings := none }

/-- Fixture: the block of `C5`, holding an `init` function. -/
def c5Block : Block :=
  .mk (.cons "init" (.mk objFunc (.blockv initBlock)) .nil) objContract (.contract c5CI) none

/-- Fixture: a registry holding only `C5`. -/
def c5VM : VMReg :=
  .mk (.cons "C5" (.mk objContract (.blockv c5Block)) .nil) objUnknown .noInfo none

/-- Fixture: a runtime whose extend map binds `parent` to `"X"`. -/
def rtParent : RTState := { blocks := [], cost := 1000, extend := [("parent", .str "X")] }

/-- C2 counterexample: with `extend["parent"] = "X"` at entry and an
`init` method whose run errors, `ExecContract` returns the method error
with `extend["parent"] = ""` (the resolved parent), NOT the entry value
`"X"` — the restore only happens on the success path. -/
theorem execContract_parent_cex :
    goGet rtParent.extend "parent" = Value.str "X" ∧
    (ExecContract envErr c5VM rtParent "C5" "" [Value.str "v"]).2.2
        = Except.error (ExecErr.methodFail "init") ∧
    goGet (ExecContract envErr c5VM rtParent "C5" "" [Value.str "v"]).1.extend "parent"
        = Value.str "" ∧
    Value.str "" ≠ Value.str "X" := by
  exact ⟨rfl, rfl, rfl, by decide⟩

/-- Witness for C2 on the success path at the `Greet` fixture. -/
theorem execContract_parent_witness :
    goGet (ExecContract envOk greetVM rt0 "Greet" "Who" [Value.str "Ada"]).1.extend "parent"
      = goGet rt0.extend "parent" :=
  execContract_parent envOk greetVM rt0 "Greet" "Who" [Value.str "Ada"] rfl rfl rfl
    (fun _ _ => rfl)
    (fun s h => by
      rw [show (ExecContract envOk greetVM rt0 "Greet" "Who" [Value.str "Ada"]).2.2
        = Except.ok "" from rfl] at h
      exact Except.noConfusion h)

/-! ### C4: the stack-hook entry/exit pairing -/

theorem execAfterGuard_events_ok (env : ExecEnv) (vm : VMReg) (rt : RTState) (name : String)
    (cb : Block) (isSig : Bool) (pars : List String) (params : List Value) (res : String)
    (h : (execAfterGuard env vm rt name cb isSig pars params).2.2 = Except.ok res) :
    (execAfterGuard env vm rt name cb isSig pars params).2.1 = [] ∨
    ∃ s1 s2, (execAfterGuard env vm rt name cb isSig pars params).2.1
      = [Event.mk s1 name, Event.mk s2 ""] := by
  unfold execAfterGuard at h ⊢
  cases hp : computeParent rt.blocks name with
  | none =>
    simp only [hp] at h
    simp at h
  | some parent =>
    simp only [hp] at h ⊢
    cases hh : hookState (bindPars rt.extend pars params) with
    | bad =>
      simp only [hh] at h
      simp at h
    | off =>
      simp only [hh] at h ⊢
      cases hspe : (sigPhase env vm (bindPars rt.extend pars params) name isSig).2 with
      | some e =>
        simp only [hspe] at h
        simp at h
      | none =>
        simp only [hspe] at h ⊢
        cases hml : (methodLoop env cb parent methodNames
            (sigPhase env vm (bindPars rt.extend pars params) name isSig).1
            (rt.cost - costContract)).2.2 with
        | some e =>
          simp only [hml] at h
          simp at h
        | none =>
          simp only [hml]
          left
          simp
    | fire =>
      simp only [hh] at h ⊢
      cases hspe : (sigPhase env vm (bindPars rt.extend pars params) name isSig).2 with
      | some e =>
        simp only [hspe] at h
        simp at h
      | none =>
        simp only [hspe] at h ⊢
        cases hml : (methodLoop env cb parent methodNames
            (sigPhase env vm (bindPars rt.extend pars params) name isSig).1
            (rt.cost - costContract)).2.2 with
        | some e =>
          simp only [hml] at h
          simp at h
        | none =>
          simp only [hml]
          right
          refine ⟨goGet (bindPars rt.extend pars params) "sc",
            goGet (methodLoop env cb parent methodNames
              (sigPhase env vm (bindPars rt.extend pars params) name isSig).1
              (rt.cost - costContract)).1 "sc", ?_⟩
          simp

/-- C4 (amended): on a SUCCESSFUL return the stack-hook trace is either
empty or exactly the entry call with the contract name followed by the
exit call with the empty string.  On a signature-hook or method error
the exit hook is NOT invoked — the original "on every return path"
claim is refuted by `execContract_stack_hook_cex`. -/
theorem execContract_stack_hook (env : ExecEnv) (vm : VMReg) (rt : RTState)
    (name txs : String) (params : List Value) (res : String)
    (h : (ExecContract env vm rt name txs params).2.2 = Except.ok res) :
    (ExecContract env vm rt name txs params).2.1 = [] ∨
    ∃ s1 s2, (ExecContract env vm rt name txs params).2.1
      = [Event.mk s1 name, Event.mk s2 ""] := by
  rcases hres : regGet vm name with _ | ⟨t, v⟩
  · rw [execContract_notfound env vm rt name txs params hres] at h
    exact absurd h (by simp)
  · cases v with
    | extv f =>
      have hred : ExecContract env vm rt name txs params =
          (rt, [], Except.error ExecErr.crashed) := by
        simp [ExecContract, hres, ObjInfo.value]
      rw [hred] at h
      exact absurd h (by simp)
    | blockv cb =>
      cases hinf : Block.info cb with
      | funcI =>
        have hred : ExecContract env vm rt name txs params =
            (rt, [], Except.error ExecErr.crashed) := by
          simp [ExecContract, hres, ObjInfo.value, hinf]
        rw [hred] at h
        exact absurd h (by simp)
      | noInfo =>
        have hred : ExecContract env vm rt name txs params =
            (rt, [], Except.error ExecErr.crashed) := by
          simp [ExecContract, hres, ObjInfo.value, hinf]
        rw [hred] at h
        exact absurd h (by simp)
      | contract ci =>
        by_cases hlen : (splitComma txs).length = params.length
        · cases herr : (checkTxWrap ci.tx (splitComma txs) rt.extend).2.2 with
          | some fn =>
            rw [execContract_undef env vm rt name txs params t cb ci fn hres hinf hlen
              herr] at h
            exact absurd h (by simp)
          | none =>
            by_cases hguard : (emGet (checkTxWrap ci.tx (splitComma txs) rt.extend).1
                ("loop_" ++ name)).isSome = true
            · rw [execContract_loop env vm rt name txs params t cb ci hres hinf hlen herr
                hguard] at h
              exact absurd h (by simp)
            · have hg0 : emGet (checkTxWrap ci.tx (splitComma txs) rt.extend).1
                  ("loop_" ++ name) = none := by
                cases hg : emGet (checkTxWrap ci.tx (splitComma txs) rt.extend).1
                    ("loop_" ++ name) with
                | none => rfl
                | some w =>
                  have hws : (emGet (checkTxWrap ci.tx (splitComma txs) rt.extend).1
                      ("loop_" ++ name)).isSome = true := by
                    rw [hg]
                    rfl
                  exact absurd hws hguard
              have hred := execContract_reduce env vm rt name txs params t cb ci hres hinf
                hlen herr hg0
              rw [hred] at h ⊢
              exact execAfterGuard_events_ok env vm
                { blocks := rt.blocks, cost := rt.cost,
                  extend := emSet (checkTxWrap ci.tx (splitComma txs) rt.extend).1
                    ("loop_" ++ name) (Value.bool true) }
                name cb ((checkTxWrap ci.tx (splitComma txs) rt.extend).2.1)
                (splitComma txs) params res h
        · rw [execContract_badparams env vm rt name txs params t cb ci hres hinf hlen] at h
          exact absurd h (by simp)

/-- Fixture: a runtime whose extend map holds a callable `stack_cont`
and a non-nil `sc`, so the entry hook fires. -/
def rtHook : RTState :=
  { blocks := [], cost := 1000, extend := [("stack_cont", .callable 7), ("sc", .str "S")] }

/-- C4 counterexample: with the hook armed and an `init` method whose
run errors, the trace holds ONLY the entry call `(sc, "C5")` — the exit
call `(sc, "")` is never made, refuting the claim's "on every return
path". -/
theorem execContract_stack_hook_cex :
    (ExecContract envErr c5VM rtHook "C5" "" [Value.str "v"]).2.1
        = [Event.mk (Value.str "S") "C5"] ∧
    (ExecContract envErr c5VM rtHook "C5" "" [Value.str "v"]).2.2
        = Except.error (ExecErr.methodFail "init") := by
  exact ⟨rfl, rfl⟩

/-- Witness for C4 at the `Greet` fixture with the hook armed. -/
theorem execContract_stack_hook_witness :
    (ExecContract envOk greetVM rtHook "Greet" "Who" [Value.str "Ada"]).2.1 = [] ∨
    ∃ s1 s2, (ExecContract envOk greetVM rtHook "Greet" "Who" [Value.str "Ada"]).2.1
      = [Event.mk s1 "Greet", Event.mk s2 ""] :=
  execContract_stack_hook envOk greetVM rtHook "Greet" "Who" [Value.str "Ada"] "" rfl

/-! ### C5: parent resolution when the bare name is empty -/

/-- C5 (amended): when the frame walk finds an innermost function frame
whose parent is a contract block and `ParseContract` of that contract's
name yields an EMPTY bare name, the parent value used for the methods
is that contract's FULL name unchanged — not the empty string as the
original claim states (refuted at a concrete input by
`execContract_parent_empty_cex`). -/
theorem computeParent_unparsed (bs : List Block) (name : String) (pb : Block)
    (ci : ContractInfo)
    (hf : findParentCBlock bs = some pb)
    (hinf : Block.info pb = BlockInfo.contract ci)
    (hemp : (ParseContract ci.name).2 = "") :
    computeParent bs name = some ci.name := by
  simp only [computeParent, hf, hinf]
  simp [rewriteParent, hemp]

/-- Fixture: a function frame whose parent block is the `Greet`
contract block (whose name has no `@id` qualifier, so its parse yields
an empty bare name). -/
def funcFrame : Block := .mk .nil objFunc .funcI (some greetBlock)

/-- Fixture: a runtime running inside `funcFrame`. -/
def rtFrames : RTState := { blocks := [funcFrame], cost := 1000, extend := [] }

/-- C5 counterexample: `ParseContract "Greet"` yields the empty bare
name, yet on a method-error return (which skips the restore and leaves
the value the methods saw) `extend["parent"]` is `"Greet"`, the FULL
contract name — not `""` as the claim states. -/
theorem execContract_parent_empty_cex :
    (ParseContract "Greet").2 = "" ∧
    goGet (ExecContract envErr c5VM rtFrames "C5" "" [Value.str "x"]).1.extend "parent"
        = Value.str "Greet" ∧
    Value.str "Greet" ≠ Value.str "" := by
  exact ⟨rfl, rfl, by decide⟩

/-- Witness for C5 at the `funcFrame` fixture. -/
theorem computeParent_unparsed_witness :
    computeParent [funcFrame] "C5" = some "Greet" :=
  computeParent_unparsed [funcFrame] "C5" greetBlock greetCI rfl rfl rfl

/-! ### Witnesses for C7 and C8 at concrete inputs -/

/-- Fixture: a dispatcher environment with trivial oracles. -/
def callEnv0 : CallEnv :=
  { runF := fun _ p m _ => (p, m, false), extF := fun _ a b => a ++ b }

/-- Witness for C7 at a name absent from the `Greet` registry. -/
theorem call_unknown_iff_witness :
    (Call callEnv0 greetVM "nope" [] []).1 = greetVM ∧
    ((Call callEnv0 greetVM "nope" [] []).2.2
        = CallRes.r [] (some (CErr.unknownFunc "nope")) ↔
      (callResolve greetVM "nope" [] = some ROut.notFound ∨
        ∃ o, callResolve greetVM "nope" [] = some (ROut.found o) ∧
          ObjInfo.otype o ≠ objFunc ∧ ObjInfo.otype o ≠ objExtFunc)) :=
  call_unknown_iff callEnv0 greetVM "nope" [] []

/-- Witness for C8 at the `Greet` fixture. -/
theorem exContract_refines_witness :
    ExContract envOk greetVM rt0 0 "Greet" [("Who", Value.str "Ada")]
      = exContractSpec envOk greetVM rt0 0 "Greet" [("Who", Value.str "Ada")] :=
  exContract_refines envOk greetVM rt0 0 "Greet" [("Who", Value.str "Ada")]

end VMSpec
